import Mathlib

set_option maxRecDepth 40000

/-!
Verification of the dependency-source toggle tool (`use-local-sdk.py`).

The tool edits `pyproject.toml` descriptors with a Python regular expression
(`SOURCES_PATTERN.sub`), detects the current mode with
`re.search(r"^\s*\[tool\.uv\.sources\]", content, re.MULTILINE)`, and drives
three commands (`enable` / `disable` / `status`) over a fixed project list.

The embedding below models the exact fragment of Python regex semantics the
script uses: priority-ordered backtracking with lazy `.*?` (under `re.DOTALL`),
greedy `\s*`, greedy optional groups `(...)?`, literals, and the unescaped `.`
wildcards that appear inside the pattern (in `../../`).  `re.sub` is modelled
as the standard leftmost-match scan that replaces every non-overlapping match.
-/

/-- Python's `\s` character class for `str` patterns: the characters for which
`str.isspace()` holds (ASCII whitespace plus the Unicode whitespace set used by
CPython's `re` module). -/
def isPySpace (c : Char) : Bool :=
  c = ' ' || c = '\t' || c = '\n' || c = '\x0b' || c = '\x0c' || c = '\r' ||
  c = '\x1c' || c = '\x1d' || c = '\x1e' || c = '\x1f' || c = '\x85' || c = '\xa0' ||
  c = '\u1680' || (0x2000 ≤ c.toNat && c.toNat ≤ 0x200a) ||
  c = '\u2028' || c = '\u2029' || c = '\u202f' || c = '\u205f' || c = '\u3000'

/-- The fragment of Python regular expressions used by `SOURCES_PATTERN`:
`eps` (empty), `anyc` (`.` under `re.DOTALL`), single characters, concatenation,
greedy option `(...)?`, the lazy wildcard star `.*?`, and the greedy
whitespace star `\s*`. -/
inductive RE where
  | eps
  | anyc
  | ch (c : Char)
  | cat (a b : RE)
  | opt (a : RE)
  | lazyStar
  | wsStar

/-- All ways the lazy `.*?` can leave a rest of the input, highest backtracking
priority first: a lazy star first consumes nothing, then extends one character
at a time. -/
def lazyAnyRests : List Char → List (List Char)
  | [] => [[]]
  | c :: t => (c :: t) :: lazyAnyRests t

/-- All ways the greedy `\s*` can leave a rest of the input, highest
backtracking priority first: a greedy star first consumes as many whitespace
characters as possible, then backs off one at a time. -/
def wsStarRests : List Char → List (List Char)
  | [] => [[]]
  | c :: t => if isPySpace c then wsStarRests t ++ [c :: t] else [c :: t]

/-- `matchRE p s` lists every rest of `s` left after a match of `p` against a
prefix of `s`, in Python's backtracking priority order (the head is the rest
the Python engine commits to). -/
def matchRE : RE → List Char → List (List Char)
  | .eps, s => [s]
  | .anyc, [] => []
  | .anyc, _ :: t => [t]
  | .ch _, [] => []
  | .ch c, d :: t => if d = c then [t] else []
  | .cat a b, s => (matchRE a s).flatMap (fun r => matchRE b r)
  | .opt a, s => matchRE a s ++ [s]
  | .lazyStar, s => lazyAnyRests s
  | .wsStar, s => wsStarRests s

/-- A literal string, as a chain of single-character regexes. -/
def strRE (l : List Char) : RE := l.foldr (fun c r => RE.cat (RE.ch c) r) RE.eps

/-- First literal of `SOURCES_PATTERN` (line 1 of the block; no regex
metacharacters occur in it). -/
def LIT1 : List Char :=
  "# Uncomment the section below to use the local spyglass-sdk for development".data

/-- Literal part of pattern line 2 before the unescaped `../../`. -/
def LIT2A : List Char := "# This assumes spyglass-sdk is located at ".data

/-- Literal part of pattern line 2 after the unescaped `../../`. -/
def LIT2B : List Char := "spyglass-sdk relative to this file".data

/-- The section header literal `[tool.uv.sources]` (escaped dots in the
pattern, hence literal). -/
def HDRS : List Char := "[tool.uv.sources]".data

/-- The unescaped `../../` of the pattern: under `re.DOTALL` each `.` matches
any character, so this is wildcard, wildcard, `/`, wildcard, wildcard, `/`. -/
def dotSlashes : RE :=
  .cat .anyc (.cat .anyc (.cat (.ch '/') (.cat .anyc (.cat .anyc (.ch '/')))))

/-- The greedy optional comment marker `(#\s*)?`. -/
def optHash : RE := RE.opt (RE.cat (RE.ch '#') RE.wsStar)

/-- Pattern line 4 after its optional comment marker:
`spyglass-ai\s*=\s*\{\s*path\s*=\s*"../../spyglass-sdk",\s*editable\s*=\s*true\s*\}`
(the `..` pairs are unescaped wildcards; `\{`, `\}` are literal braces). -/
def seg4body : RE :=
  .cat (strRE "spyglass-ai".data)
    (.cat .wsStar
      (.cat (.ch '=')
        (.cat .wsStar
          (.cat (.ch '\x7b')
            (.cat .wsStar
              (.cat (strRE "path".data)
                (.cat .wsStar
                  (.cat (.ch '=')
                    (.cat .wsStar
                      (.cat (.ch '\"')
                        (.cat dotSlashes
                          (.cat (strRE "spyglass-sdk\",".data)
                            (.cat .wsStar
                              (.cat (strRE "editable".data)
                                (.cat .wsStar
                                  (.cat (.ch '=')
                                    (.cat .wsStar
                                      (.cat (strRE "true".data)
                                        (.cat .wsStar (.ch '\x7d'))))))))))))))))))))

/-- Pattern line 4: `(#\s*)?` followed by the dependency-path line. -/
def seg4 : RE := .cat optHash seg4body

/-- Pattern line 3 onwards after its optional comment marker:
`\[tool\.uv\.sources\].*?\n` followed by line 4. -/
def segHdrBody : RE :=
  .cat (strRE HDRS) (.cat .lazyStar (.cat (.ch '\n') seg4))

/-- Pattern line 3 onwards: `(#\s*)?\[tool\.uv\.sources\].*?\n` followed by
line 4. -/
def segHdr : RE := .cat optHash segHdrBody

/-- Pattern line 2 onwards: `# This assumes ... ../../spyglass-sdk relative to this file.*?\n`
followed by line 3 onwards. -/
def seg2 : RE :=
  .cat (strRE LIT2A)
    (.cat dotSlashes (.cat (strRE LIT2B) (.cat .lazyStar (.cat (.ch '\n') segHdr))))

/-- Everything of `SOURCES_PATTERN` after its first literal:
`.*?\n` then line 2 onwards. -/
def QREST : RE := .cat .lazyStar (.cat (.ch '\n') seg2)

/-- The full `SOURCES_PATTERN` of `use-local-sdk.py`, compiled with
`re.DOTALL`. -/
def PAT : RE := .cat (strRE LIT1) QREST

/-- `ENABLED_SECTION` of `use-local-sdk.py` (uncommented block). -/
def ENS : List Char :=
  ("# Uncomment the section below to use the local spyglass-sdk for development\n# This assumes spyglass-sdk is located at ../../spyglass-sdk relative to this file\n[tool.uv.sources]\nspyglass-ai = \x7b path = \"../../spyglass-sdk\", editable = true \x7d").data

/-- `DISABLED_SECTION` of `use-local-sdk.py` (commented block). -/
def DIS : List Char :=
  ("# Uncomment the section below to use the local spyglass-sdk for development\n# This assumes spyglass-sdk is located at ../../spyglass-sdk relative to this file\n# [tool.uv.sources]\n# spyglass-ai = \x7b path = \"../../spyglass-sdk\", editable = true \x7d").data

/-- The rest of the input after the match the Python engine commits to at the
current position, if the pattern matches here (`SOURCES_PATTERN.match` at one
position). -/
def tryMatch (s : List Char) : Option (List Char) := (matchRE PAT s).head?

theorem mem_lazyAnyRests_length : ∀ {s r : List Char}, r ∈ lazyAnyRests s → r.length ≤ s.length := by
  intro s
  induction s with
  | nil => intro r h; simp [lazyAnyRests] at h; simp [h]
  | cons c t ih =>
    intro r h
    simp only [lazyAnyRests, List.mem_cons] at h
    rcases h with h | h
    · simp [h]
    · have := ih h; simp; omega

theorem mem_wsStarRests_length : ∀ {s r : List Char}, r ∈ wsStarRests s → r.length ≤ s.length := by
  intro s
  induction s with
  | nil => intro r h; simp [wsStarRests] at h; simp [h]
  | cons c t ih =>
    intro r h
    simp only [wsStarRests] at h
    by_cases hc : isPySpace c = true
    · rw [if_pos hc] at h
      rcases List.mem_append.mp h with h | h
      · have := ih h; simp; omega
      · rcases List.mem_singleton.mp h with rfl; exact le_refl _
    · rw [if_neg hc] at h
      rcases List.mem_singleton.mp h with rfl; exact le_refl _

theorem matchRE_length_le (p : RE) : ∀ {s r : List Char}, r ∈ matchRE p s → r.length ≤ s.length := by
  induction p with
  | eps => intro s r h; simp [matchRE] at h; simp [h]
  | anyc =>
    intro s r h
    cases s with
    | nil => simp [matchRE] at h
    | cons c t => simp [matchRE] at h; simp [h]
  | ch c =>
    intro s r h
    cases s with
    | nil => simp [matchRE] at h
    | cons d t =>
      simp only [matchRE] at h
      by_cases hd : d = c
      · simp [hd] at h; simp [h]
      · simp [hd] at h
  | cat a b iha ihb =>
    intro s r h
    simp only [matchRE, List.mem_flatMap] at h
    obtain ⟨m, hm, hr⟩ := h
    exact le_trans (ihb hr) (iha hm)
  | opt a iha =>
    intro s r h
    simp only [matchRE, List.mem_append, List.mem_singleton] at h
    rcases h with h | h
    · exact iha h
    · simp [h]
  | lazyStar => intro s r h; exact mem_lazyAnyRests_length h
  | wsStar => intro s r h; exact mem_wsStarRests_length h

theorem matchRE_cat (a b : RE) (s : List Char) :
    matchRE (.cat a b) s = (matchRE a s).flatMap (fun r => matchRE b r) := rfl

theorem matchRE_cat_mem {a b : RE} {s r : List Char} :
    r ∈ matchRE (.cat a b) s ↔ ∃ m ∈ matchRE a s, r ∈ matchRE b m := by
  rw [matchRE_cat, List.mem_flatMap]

theorem strRE_cons (c : Char) (l : List Char) :
    strRE (c :: l) = RE.cat (RE.ch c) (strRE l) := rfl

theorem strRE_mem (l : List Char) :
    ∀ {s r : List Char}, r ∈ matchRE (strRE l) s ↔ (l.isPrefixOf s ∧ r = s.drop l.length) := by
  induction l with
  | nil =>
    intro s r
    simp [strRE, matchRE, List.isPrefixOf, eq_comm]
  | cons c l' ih =>
    intro s r
    rw [strRE_cons, matchRE_cat_mem]
    cases s with
    | nil =>
      constructor
      · rintro ⟨m, hm, _⟩
        simp [matchRE] at hm
      · rintro ⟨hpre, _⟩
        simp [List.isPrefixOf] at hpre
    | cons d t =>
      by_cases hd : d = c
      · subst hd
        constructor
        · rintro ⟨m, hm, hr⟩
          simp [matchRE] at hm
          subst hm
          rw [ih] at hr
          refine ⟨?_, ?_⟩
          · simp [List.isPrefixOf, hr.1]
          · simpa using hr.2
        · rintro ⟨hpre, hr⟩
          refine ⟨t, by simp [matchRE], ?_⟩
          rw [ih]
          simp only [List.isPrefixOf, Bool.and_eq_true, beq_iff_eq] at hpre
          exact ⟨hpre.2, by simpa using hr⟩
      · constructor
        · rintro ⟨m, hm, _⟩
          simp only [matchRE, if_neg hd] at hm
          simp at hm
        · rintro ⟨hpre, _⟩
          simp only [List.isPrefixOf, Bool.and_eq_true, beq_iff_eq] at hpre
          exact absurd hpre.1.symm hd

theorem head?_mem {α : Type} {l : List α} {a : α} (h : l.head? = some a) : a ∈ l := by
  cases l with
  | nil => simp at h
  | cons x xs => simp at h; simp [h]

theorem tryMatch_some_mem {s r : List Char} (h : tryMatch s = some r) : r ∈ matchRE PAT s :=
  head?_mem h

theorem PAT_def : PAT = RE.cat (strRE LIT1) QREST := rfl

theorem PAT_mem {s r : List Char} :
    r ∈ matchRE PAT s ↔ LIT1.isPrefixOf s ∧ r ∈ matchRE QREST (s.drop LIT1.length) := by
  rw [PAT_def, matchRE_cat_mem]
  constructor
  · rintro ⟨m, hm, hr⟩
    rw [strRE_mem] at hm
    exact ⟨hm.1, hm.2 ▸ hr⟩
  · rintro ⟨h1, h2⟩
    exact ⟨s.drop LIT1.length, (strRE_mem LIT1).mpr ⟨h1, rfl⟩, h2⟩

theorem isPrefixOf_length {l s : List Char} (h : l.isPrefixOf s) : l.length ≤ s.length := by
  have := List.isPrefixOf_iff_prefix.mp h
  exact this.length_le

theorem tryMatch_shrink {s r : List Char} (h : tryMatch s = some r) : r.length < s.length := by
  have hm := tryMatch_some_mem h
  rw [PAT_mem] at hm
  have h1 : LIT1.length ≤ s.length := isPrefixOf_length hm.1
  have h2 : r.length ≤ (s.drop LIT1.length).length := matchRE_length_le _ hm.2
  have h3 : (0:Nat) < LIT1.length := by decide
  simp [List.length_drop] at h2
  omega

/-- Fuel-indexed scan of `re.sub`: at each position replace the leftmost match
the engine commits to with `repl` and continue after it, otherwise keep one
character and move on.  The fuel only bounds the recursion; every step strictly
shrinks the input, so `s.length` fuel is always enough. -/
def subAllF (repl : List Char) : Nat → List Char → List Char
  | 0, s => s
  | fuel+1, s =>
    match tryMatch s with
    | some r => repl ++ subAllF repl fuel r
    | none =>
      match s with
      | [] => []
      | c :: t => c :: subAllF repl fuel t

/-- `SOURCES_PATTERN.sub repl s` (Python `re.sub`, all occurrences). -/
def subAll (repl : List Char) (s : List Char) : List Char := subAllF repl s.length s

theorem subAllF_nil (repl : List Char) : ∀ fuel, subAllF repl fuel [] = [] := by
  intro fuel
  cases fuel with
  | zero => rfl
  | succ f => rfl

theorem subAllF_irrel (repl : List Char) :
    ∀ f₁ f₂ s, s.length ≤ f₁ → s.length ≤ f₂ →
      subAllF repl f₁ s = subAllF repl f₂ s := by
  intro f₁
  induction f₁ with
  | zero =>
    intro f₂ s h₁ _
    have hs : s = [] := List.length_eq_zero.mp (Nat.le_zero.mp h₁)
    subst hs
    rw [subAllF_nil, subAllF_nil]
  | succ g ih =>
    intro f₂ s h₁ h₂
    cases s with
    | nil => rw [subAllF_nil, subAllF_nil]
    | cons c t =>
      have hlen : 0 < f₂ := by simp at h₂; omega
      obtain ⟨g₂, rfl⟩ : ∃ g₂, f₂ = g₂ + 1 := ⟨f₂ - 1, by omega⟩
      cases hm : tryMatch (c :: t) with
      | some r =>
        have hr := tryMatch_shrink hm
        simp only [subAllF, hm]
        rw [ih g₂ r (by simp at h₁ hr ⊢; omega) (by simp at h₂ hr ⊢; omega)]
      | none =>
        simp only [subAllF, hm]
        rw [ih g₂ t (by simp at h₁; omega) (by simp at h₂; omega)]

theorem subAll_nil (repl : List Char) : subAll repl [] = [] := rfl

theorem subAll_some {repl s r : List Char} (h : tryMatch s = some r) :
    subAll repl s = repl ++ subAll repl r := by
  have hpos : 0 < s.length := by
    cases s with
    | nil =>
      have : tryMatch ([] : List Char) = none := rfl
      rw [this] at h
      cases h
    | cons c t => simp
  obtain ⟨g, hg⟩ : ∃ g, s.length = g + 1 := ⟨s.length - 1, by omega⟩
  have hr := tryMatch_shrink h
  unfold subAll
  rw [hg]
  simp only [subAllF, h]
  rw [subAllF_irrel repl g r.length r (by omega) le_rfl]

theorem subAll_none_cons {repl : List Char} {c : Char} {t : List Char}
    (h : tryMatch (c :: t) = none) : subAll repl (c :: t) = c :: subAll repl t := by
  unfold subAll
  simp only [List.length_cons, subAllF, h]

/-- `Consumes p b`: at the start of `b ++ u` the backtracking engine commits to
the match that consumes exactly `b`, whatever `u` follows. -/
def Consumes (p : RE) (b : List Char) : Prop :=
  ∀ u : List Char, (matchRE p (b ++ u)).head? = some u

theorem strRE_eq (l : List Char) :
    ∀ s : List Char, matchRE (strRE l) s =
      if l.isPrefixOf s then [s.drop l.length] else [] := by
  induction l with
  | nil => intro s; simp [strRE, matchRE, List.isPrefixOf]
  | cons c l' ih =>
    intro s
    rw [strRE_cons, matchRE_cat]
    cases s with
    | nil => simp [matchRE, List.isPrefixOf]
    | cons d t =>
      by_cases hd : d = c
      · subst hd
        have hch : matchRE (RE.ch d) (d :: t) = [t] := by simp [matchRE]
        rw [hch]
        simp only [List.flatMap_cons, List.flatMap_nil, List.append_nil, ih t]
        have hpre : (d :: l').isPrefixOf (d :: t) = l'.isPrefixOf t := by
          simp [List.isPrefixOf]
        rw [hpre]
        by_cases hp : l'.isPrefixOf t = true
        · simp [hp]
        · simp [hp]
      · simp only [matchRE, if_neg hd, List.flatMap_nil]
        have : (d :: l').isPrefixOf (d :: t) = l'.isPrefixOf t := by
          simp [List.isPrefixOf]
        have hne : (c :: l').isPrefixOf (d :: t) = false := by
          simp only [List.isPrefixOf, Bool.and_eq_false_iff]
          left
          simp [beq_iff_eq]
          exact fun h => hd h.symm
        simp [hne]

theorem isPrefixOf_append_self (l x : List Char) : l.isPrefixOf (l ++ x) = true := by
  induction l with
  | nil => simp [List.isPrefixOf]
  | cons c t ih => simp [List.isPrefixOf, ih]

theorem head?_append_some {α : Type} {l₁ l₂ : List α} {a : α} (h : l₁.head? = some a) :
    (l₁ ++ l₂).head? = some a := by
  cases l₁ with
  | nil => simp at h
  | cons x xs => simp at h; simp [h]

theorem consumes_str (l : List Char) : Consumes (strRE l) l := by
  intro u
  rw [strRE_eq, if_pos (isPrefixOf_append_self l u)]
  simp

theorem consumes_ch (c : Char) : Consumes (.ch c) [c] := by
  intro u
  simp [matchRE]

theorem consumes_anyc (c : Char) : Consumes .anyc [c] := by
  intro u
  simp [matchRE]

theorem head?_flatMap_some {f : List Char → List (List Char)} {l : List (List Char)}
    {m r : List Char} (hl : l.head? = some m) (hf : (f m).head? = some r) :
    (l.flatMap f).head? = some r := by
  cases l with
  | nil => simp at hl
  | cons x xs =>
    simp only [List.head?_cons, Option.some.injEq] at hl
    subst hl
    rw [List.flatMap_cons]
    exact head?_append_some hf

theorem consumes_cat {a z : RE} {b₁ b₂ : List Char}
    (ha : Consumes a b₁) (hz : Consumes z b₂) : Consumes (.cat a z) (b₁ ++ b₂) := by
  intro u
  rw [matchRE_cat, List.append_assoc]
  exact head?_flatMap_some (ha (b₂ ++ u)) (hz u)

theorem lazyAnyRests_head (s : List Char) : (lazyAnyRests s).head? = some s := by
  cases s <;> simp [lazyAnyRests]

theorem consumes_lazy {z : RE} {b : List Char} (hz : Consumes z b) :
    Consumes (.cat .lazyStar z) b := by
  intro u
  rw [matchRE_cat]
  exact head?_flatMap_some (lazyAnyRests_head (b ++ u)) (hz u)

theorem wsStarRests_head (s : List Char) :
    (wsStarRests s).head? = some (s.dropWhile isPySpace) := by
  induction s with
  | nil => simp [wsStarRests, List.dropWhile]
  | cons c t ih =>
    simp only [wsStarRests, List.dropWhile]
    by_cases hc : isPySpace c = true
    · rw [if_pos hc, hc]
      simp only
      exact head?_append_some ih
    · rw [if_neg hc]
      simp only [Bool.not_eq_true] at hc
      rw [hc]
      simp

theorem dropWhile_ws_append {w b : List Char} (hw : w.all isPySpace = true)
    (hb : (b.head?.map isPySpace) = some false) (u : List Char) :
    (w ++ (b ++ u)).dropWhile isPySpace = b ++ u := by
  induction w with
  | nil =>
    cases b with
    | nil => simp at hb
    | cons c t =>
      simp only [Option.map, List.head?_cons, Option.some.injEq] at hb
      simp [List.dropWhile, hb]
  | cons c w' ih =>
    simp only [List.all_cons, Bool.and_eq_true] at hw
    simp only [List.cons_append, List.dropWhile, hw.1]
    exact ih hw.2

theorem consumes_ws {z : RE} {w b : List Char} (hw : w.all isPySpace = true)
    (hb : (b.head?.map isPySpace) = some false) (hz : Consumes z b) :
    Consumes (.cat .wsStar z) (w ++ b) := by
  intro u
  rw [matchRE_cat, List.append_assoc]
  have h1 : (wsStarRests (w ++ (b ++ u))).head? = some (b ++ u) := by
    rw [wsStarRests_head, dropWhile_ws_append hw hb]
  exact head?_flatMap_some h1 (hz u)

theorem optHash_def : optHash = RE.opt (RE.cat (RE.ch '#') RE.wsStar) := rfl

theorem matchRE_opt (a : RE) (s : List Char) :
    matchRE (.opt a) s = matchRE a s ++ [s] := rfl

theorem consumes_optHash_no {z : RE} {b : List Char}
    (hb : (b.head?.map (fun c => c == '#')) = some false) (hz : Consumes z b) :
    Consumes (.cat optHash z) b := by
  obtain ⟨c, t, rfl⟩ : ∃ c t, b = c :: t := by
    cases b with
    | nil => simp at hb
    | cons c t => exact ⟨c, t, rfl⟩
  have hc : c ≠ '#' := by
    simp only [List.head?_cons, Option.map, Option.some.injEq, beq_eq_false_iff_ne,
      ne_eq] at hb
    exact hb
  intro u
  rw [matchRE_cat]
  have h1 : (matchRE optHash (c :: t ++ u)).head? = some (c :: t ++ u) := by
    rw [optHash_def, matchRE_opt, matchRE_cat]
    simp [matchRE, hc]
  have h2 := hz u
  rw [List.cons_append] at h1 h2 ⊢
  exact head?_flatMap_some h1 h2

theorem consumes_optHash_hash {z : RE} {w b : List Char} (hw : w.all isPySpace = true)
    (hb : (b.head?.map isPySpace) = some false) (hz : Consumes z b) :
    Consumes (.cat optHash z) ('#' :: (w ++ b)) := by
  intro u
  rw [matchRE_cat]
  have h1 : (matchRE optHash (('#' :: (w ++ b)) ++ u)).head? = some (b ++ u) := by
    rw [optHash_def, matchRE_opt]
    have hstep : matchRE (RE.cat (RE.ch '#') RE.wsStar) (('#' :: (w ++ b)) ++ u)
        = wsStarRests ((w ++ b) ++ u) := by
      rw [matchRE_cat]
      simp [matchRE]
    rw [hstep]
    have hws : (wsStarRests ((w ++ b) ++ u)).head? = some (b ++ u) := by
      rw [List.append_assoc, wsStarRests_head, dropWhile_ws_append hw hb]
    exact head?_append_some hws
  exact head?_flatMap_some h1 (hz u)

/-- The characters `../../` as consumed by the unescaped wildcards. -/
def DOTS : List Char := ['.'] ++ (['.'] ++ (['/'] ++ (['.'] ++ (['.'] ++ ['/']))))

theorem consumes_dots : Consumes dotSlashes DOTS := by
  unfold dotSlashes DOTS
  apply consumes_cat (consumes_anyc '.')
  apply consumes_cat (consumes_anyc '.')
  apply consumes_cat (consumes_ch '/')
  apply consumes_cat (consumes_anyc '.')
  apply consumes_cat (consumes_anyc '.')
  exact consumes_ch '/'

/-- The dependency-path line common to both blocks, split along the structure
of `seg4body`. -/
def B4 : List Char :=
  "spyglass-ai".data ++ (" ".data ++ (['='] ++ (" ".data ++ (['\x7b'] ++
    (" ".data ++ ("path".data ++ (" ".data ++ (['='] ++ (" ".data ++ (['\"'] ++
    (DOTS ++ ("spyglass-sdk\",".data ++ (" ".data ++ ("editable".data ++
    (" ".data ++ (['='] ++ (" ".data ++ ("true".data ++
    (" ".data ++ ['\x7d'])))))))))))))))))))

theorem consumes_seg4body : Consumes seg4body B4 := by
  unfold seg4body B4
  apply consumes_cat (consumes_str _)
  apply consumes_ws
  · decide
  · decide
  apply consumes_cat (consumes_ch '=')
  apply consumes_ws
  · decide
  · decide
  apply consumes_cat (consumes_ch '\x7b')
  apply consumes_ws
  · decide
  · decide
  apply consumes_cat (consumes_str _)
  apply consumes_ws
  · decide
  · decide
  apply consumes_cat (consumes_ch '=')
  apply consumes_ws
  · decide
  · decide
  apply consumes_cat (consumes_ch '\"')
  apply consumes_cat consumes_dots
  apply consumes_cat (consumes_str _)
  apply consumes_ws
  · decide
  · decide
  apply consumes_cat (consumes_str _)
  apply consumes_ws
  · decide
  · decide
  apply consumes_cat (consumes_ch '=')
  apply consumes_ws
  · decide
  · decide
  apply consumes_cat (consumes_str _)
  apply consumes_ws
  · decide
  · decide
  exact consumes_ch '\x7d'

theorem consumes_seg4_en : Consumes seg4 B4 := by
  unfold seg4
  apply consumes_optHash_no
  · decide
  exact consumes_seg4body

theorem consumes_seg4_dis : Consumes seg4 ('#' :: (" ".data ++ B4)) := by
  unfold seg4
  apply consumes_optHash_hash
  · decide
  · decide
  exact consumes_seg4body

theorem consumes_segHdrBody_of {b4 : List Char} (h4 : Consumes seg4 b4) :
    Consumes segHdrBody (HDRS ++ (['\n'] ++ b4)) := by
  unfold segHdrBody
  apply consumes_cat (consumes_str _)
  apply consumes_lazy
  exact consumes_cat (consumes_ch '\n') h4

theorem consumes_segHdr_en : Consumes segHdr (HDRS ++ (['\n'] ++ B4)) := by
  unfold segHdr
  apply consumes_optHash_no
  · decide
  exact consumes_segHdrBody_of consumes_seg4_en

theorem consumes_segHdr_dis :
    Consumes segHdr ('#' :: (" ".data ++ (HDRS ++ (['\n'] ++ ('#' :: (" ".data ++ B4)))))) := by
  unfold segHdr
  apply consumes_optHash_hash
  · decide
  · decide
  exact consumes_segHdrBody_of consumes_seg4_dis

theorem consumes_seg2_of {bh : List Char} (hh : Consumes segHdr bh) :
    Consumes seg2 (LIT2A ++ (DOTS ++ (LIT2B ++ (['\n'] ++ bh)))) := by
  unfold seg2
  apply consumes_cat (consumes_str _)
  apply consumes_cat consumes_dots
  apply consumes_cat (consumes_str _)
  apply consumes_lazy
  exact consumes_cat (consumes_ch '\n') hh

theorem consumes_PAT_of {b2 : List Char} (h2 : Consumes seg2 b2) :
    Consumes PAT (LIT1 ++ (['\n'] ++ b2)) := by
  rw [PAT_def]
  apply consumes_cat (consumes_str _)
  unfold QREST
  apply consumes_lazy
  exact consumes_cat (consumes_ch '\n') h2

theorem ENS_decomp :
    ENS = LIT1 ++ (['\n'] ++ (LIT2A ++ (DOTS ++ (LIT2B ++ (['\n'] ++
      (HDRS ++ (['\n'] ++ B4))))))) := by decide

theorem DIS_decomp :
    DIS = LIT1 ++ (['\n'] ++ (LIT2A ++ (DOTS ++ (LIT2B ++ (['\n'] ++
      ('#' :: (" ".data ++ (HDRS ++ (['\n'] ++ ('#' :: (" ".data ++ B4))))))))))) := by decide

theorem consumes_PAT_ENS : Consumes PAT ENS := by
  rw [ENS_decomp]
  exact consumes_PAT_of (consumes_seg2_of consumes_segHdr_en)

theorem consumes_PAT_DIS : Consumes PAT DIS := by
  rw [DIS_decomp]
  exact consumes_PAT_of (consumes_seg2_of consumes_segHdr_dis)

/-- At the start of the canonical uncommented block the engine commits to the
match that consumes exactly the block, whatever follows it: every lazy star
closes at the first newline inside the block. -/
theorem tryMatch_ENS (u : List Char) : tryMatch (ENS ++ u) = some u :=
  consumes_PAT_ENS u

/-- At the start of the canonical commented block the engine commits to the
match that consumes exactly the block, whatever follows it. -/
theorem tryMatch_DIS (u : List Char) : tryMatch (DIS ++ u) = some u :=
  consumes_PAT_DIS u

theorem pfx_take {l m : List Char} (h : l.isPrefixOf m = true) : l = m.take l.length :=
  List.prefix_iff_eq_take.mp (List.isPrefixOf_iff_prefix.mp h)

theorem pfx_recon {l m : List Char} (h : l.isPrefixOf m = true) :
    m = l ++ m.drop l.length := by
  conv_lhs => rw [← List.take_append_drop l.length m]
  rw [← pfx_take h]

theorem pfx_of_pfx_append_long {l x y : List Char} (h : l.isPrefixOf (x ++ y) = true)
    (hl : l.length ≤ x.length) : l.isPrefixOf x = true := by
  rw [List.isPrefixOf_iff_prefix, List.prefix_iff_eq_take]
  have := pfx_take h
  rw [this]
  rw [List.take_append_eq_append_take]
  have hz : l.length - x.length = 0 := by omega
  rw [hz]
  simp [List.take_take, Nat.min_def, hl]

theorem pfx_append_ext {l x : List Char} (h : l.isPrefixOf x = true) (y : List Char) :
    l.isPrefixOf (x ++ y) = true := by
  rw [List.isPrefixOf_iff_prefix] at h ⊢
  exact h.trans (List.prefix_append x y)

theorem pfx_drop_part {l x y : List Char} (h : l.isPrefixOf (x ++ y) = true)
    (hx : x.length ≤ l.length) :
    x = l.take x.length ∧ (l.drop x.length).isPrefixOf y = true := by
  have hl := pfx_take h
  constructor
  · rw [hl, List.take_take, Nat.min_def, if_pos hx, List.take_left]
  · rw [List.isPrefixOf_iff_prefix, List.prefix_iff_eq_take]
    rw [hl, List.drop_take, List.drop_left]
    congr 1
    rw [hl]
    simp [List.length_take]
    omega

theorem LIT1_no_border :
    ∀ j, 0 < j → j < LIT1.length → LIT1.drop j ≠ LIT1.take (LIT1.length - j) := by
  have h : ∀ j ∈ List.range LIT1.length,
      j = 0 ∨ decide (LIT1.drop j = LIT1.take (LIT1.length - j)) = false := by decide
  intro j hj hjl heq
  rcases h j (List.mem_range.mpr hjl) with h0 | hne
  · omega
  · rw [decide_eq_false_iff_not] at hne
    exact hne heq

theorem lazy_mem_suffix : ∀ {s r : List Char}, r ∈ lazyAnyRests s → ∃ a, s = a ++ r := by
  intro s
  induction s with
  | nil => intro r h; simp [lazyAnyRests] at h; exact ⟨[], by simp [h]⟩
  | cons c t ih =>
    intro r h
    simp only [lazyAnyRests, List.mem_cons] at h
    rcases h with h | h
    · exact ⟨[], by simp [h]⟩
    · obtain ⟨a, ha⟩ := ih h
      exact ⟨c :: a, by simp [ha]⟩

theorem mem_lazyAnyRests_self (r : List Char) : r ∈ lazyAnyRests r := by
  cases r <;> simp [lazyAnyRests]

theorem lazy_suffix_mem : ∀ (a r : List Char), r ∈ lazyAnyRests (a ++ r) := by
  intro a
  induction a with
  | nil => intro r; simpa using mem_lazyAnyRests_self r
  | cons c a' ih =>
    intro r
    simp only [List.cons_append, lazyAnyRests, List.mem_cons]
    exact Or.inr (ih r)

theorem ws_mem_decomp : ∀ {s r : List Char}, r ∈ wsStarRests s →
    ∃ w, s = w ++ r ∧ w.all isPySpace = true := by
  intro s
  induction s with
  | nil =>
    intro r h
    simp [wsStarRests] at h
    exact ⟨[], by simp [h]⟩
  | cons c t ih =>
    intro r h
    simp only [wsStarRests] at h
    by_cases hc : isPySpace c = true
    · rw [if_pos hc] at h
      rcases List.mem_append.mp h with h | h
      · obtain ⟨w, hw1, hw2⟩ := ih h
        exact ⟨c :: w, by simp [hw1], by simp [hw2, hc]⟩
      · rcases List.mem_singleton.mp h with rfl
        exact ⟨[], by simp⟩
    · rw [if_neg hc] at h
      rcases List.mem_singleton.mp h with rfl
      exact ⟨[], by simp⟩

theorem mem_wsStarRests_self (r : List Char) : r ∈ wsStarRests r := by
  cases r with
  | nil => simp [wsStarRests]
  | cons c t =>
    simp only [wsStarRests]
    by_cases hc : isPySpace c = true
    · rw [if_pos hc]; simp
    · rw [if_neg hc]; simp

theorem ws_decomp_mem : ∀ {w : List Char}, w.all isPySpace = true →
    ∀ r, r ∈ wsStarRests (w ++ r) := by
  intro w
  induction w with
  | nil => intro _ r; simpa using mem_wsStarRests_self r
  | cons c w' ih =>
    intro hw r
    simp only [List.all_cons, Bool.and_eq_true] at hw
    simp only [List.cons_append, wsStarRests, if_pos hw.1]
    exact List.mem_append.mpr (Or.inl (ih hw.2 r))

theorem matchRE_app (p : RE) : ∀ {s r u : List Char},
    r ∈ matchRE p s → (r ++ u) ∈ matchRE p (s ++ u) := by
  induction p with
  | eps =>
    intro s r u h
    simp [matchRE] at h
    simp [matchRE, h]
  | anyc =>
    intro s r u h
    cases s with
    | nil => simp [matchRE] at h
    | cons c t => simp [matchRE] at h; simp [matchRE, h]
  | ch c =>
    intro s r u h
    cases s with
    | nil => simp [matchRE] at h
    | cons d t =>
      simp only [matchRE] at h
      by_cases hd : d = c
      · rw [if_pos hd] at h
        rcases List.mem_singleton.mp h with rfl
        simp only [List.cons_append, matchRE, if_pos hd]
        simp
      · rw [if_neg hd] at h
        simp at h
  | cat a z iha ihz =>
    intro s r u h
    rw [matchRE_cat_mem] at h ⊢
    obtain ⟨m, hm, hr⟩ := h
    exact ⟨m ++ u, iha hm, ihz hr⟩
  | opt a iha =>
    intro s r u h
    rw [matchRE_opt] at h ⊢
    rcases List.mem_append.mp h with h | h
    · exact List.mem_append.mpr (Or.inl (iha h))
    · rcases List.mem_singleton.mp h with rfl
      exact List.mem_append.mpr (Or.inr (by simp))
  | lazyStar =>
    intro s r u h
    obtain ⟨a, rfl⟩ := lazy_mem_suffix h
    have : matchRE RE.lazyStar ((a ++ r) ++ u) = lazyAnyRests (a ++ (r ++ u)) := by
      rw [List.append_assoc]; rfl
    rw [this]
    exact lazy_suffix_mem a (r ++ u)
  | wsStar =>
    intro s r u h
    obtain ⟨w, rfl, hw⟩ := ws_mem_decomp h
    have : matchRE RE.wsStar ((w ++ r) ++ u) = wsStarRests (w ++ (r ++ u)) := by
      rw [List.append_assoc]; rfl
    rw [this]
    exact ws_decomp_mem hw (r ++ u)

theorem QREST_def : QREST = RE.cat RE.lazyStar (RE.cat (RE.ch '\n') seg2) := rfl

theorem QREST_prepend {v r : List Char} (h : r ∈ matchRE QREST v) (x : List Char) :
    r ∈ matchRE QREST (x ++ v) := by
  rw [QREST_def, matchRE_cat_mem] at h ⊢
  obtain ⟨m, hm, hr⟩ := h
  obtain ⟨a, rfl⟩ := lazy_mem_suffix hm
  refine ⟨m, ?_, hr⟩
  have : matchRE RE.lazyStar (x ++ (a ++ m)) = lazyAnyRests ((x ++ a) ++ m) := by
    rw [List.append_assoc]; rfl
  rw [this]
  exact lazy_suffix_mem (x ++ a) m

theorem canP_iff {s : List Char} :
    matchRE PAT s ≠ [] ↔
      LIT1.isPrefixOf s = true ∧ matchRE QREST (s.drop LIT1.length) ≠ [] := by
  constructor
  · intro h
    obtain ⟨r, hr⟩ := List.exists_mem_of_ne_nil _ h
    rw [PAT_mem] at hr
    exact ⟨hr.1, List.ne_nil_of_mem hr.2⟩
  · rintro ⟨h1, h2⟩
    obtain ⟨r, hr⟩ := List.exists_mem_of_ne_nil _ h2
    exact List.ne_nil_of_mem (PAT_mem.mpr ⟨h1, hr⟩)

theorem tryMatch_none_iff {s : List Char} : tryMatch s = none ↔ matchRE PAT s = [] := by
  unfold tryMatch
  exact List.head?_eq_none_iff

theorem canP_head {s : List Char} (h : matchRE PAT s ≠ []) : s.head? = some '#' := by
  have h1 := (canP_iff.mp h).1
  cases s with
  | nil =>
    have : LIT1.isPrefixOf ([] : List Char) = false := by decide
    rw [this] at h1
    cases h1
  | cons d t =>
    have h2 := pfx_take h1
    have hd : LIT1.head? = some d := by
      rw [h2]
      have : (0:Nat) < LIT1.length := by decide
      cases hL : LIT1.length with
      | zero => omega
      | succ n => simp [List.take]
    have hsharp : LIT1.head? = some '#' := by decide
    rw [hsharp] at hd
    simp only [Option.some.injEq] at hd
    subst hd
    rfl

theorem tryMatch_none_of_not_hash {c : Char} {t : List Char} (hc : c ≠ '#') :
    tryMatch (c :: t) = none := by
  rw [tryMatch_none_iff]
  by_contra h
  have := canP_head h
  simp at this
  exact hc this

theorem canP_shift (repl : List Char) (hrep : LIT1.isPrefixOf repl = true) :
    ∀ n t x, t.length ≤ n →
      matchRE PAT (x ++ subAll repl t) ≠ [] → matchRE PAT (x ++ t) ≠ [] := by
  intro n
  induction n with
  | zero =>
    intro t x hlen h
    have ht : t = [] := List.length_eq_zero.mp (Nat.le_zero.mp hlen)
    subst ht
    rwa [subAll_nil] at h
  | succ n ih =>
    intro t x hlen h
    cases hm : tryMatch t with
    | none =>
      cases t with
      | nil => rwa [subAll_nil] at h
      | cons c t' =>
        rw [subAll_none_cons hm] at h
        rw [List.append_cons] at h ⊢
        have hlen' : t'.length ≤ n := by simp at hlen; omega
        exact ih t' (x ++ [c]) hlen' h
    | some r =>
      rw [subAll_some hm] at h
      have hmem := tryMatch_some_mem hm
      have hdec := PAT_mem.mp hmem
      have hpre_t : LIT1.isPrefixOf t = true := hdec.1
      have hQ : r ∈ matchRE QREST (t.drop LIT1.length) := hdec.2
      have ht : t = LIT1 ++ t.drop LIT1.length := pfx_recon hpre_t
      have hL1len : (0:Nat) < LIT1.length := by decide
      by_cases hxe : x = []
      · subst hxe
        simpa using List.ne_nil_of_mem hmem
      · have hxlen : 0 < x.length := List.length_pos.mpr hxe
        by_cases hlong : LIT1.length ≤ x.length
        · have hpre_x : LIT1.isPrefixOf x = true := by
            have h1 := (canP_iff.mp h).1
            rw [← List.append_assoc] at h1
            exact pfx_of_pfx_append_long (by rwa [List.append_assoc] at h1)
              (by omega)
          rw [canP_iff]
          refine ⟨pfx_append_ext hpre_x t, ?_⟩
          have hdrop : (x ++ t).drop LIT1.length = x.drop LIT1.length ++ t := by
            rw [List.drop_append_eq_append_drop]
            have : LIT1.length - x.length = 0 := by omega
            rw [this, List.drop_zero]
          rw [hdrop]
          have : r ∈ matchRE QREST ((x.drop LIT1.length ++ LIT1) ++ t.drop LIT1.length) :=
            QREST_prepend hQ _
          rw [List.append_assoc, ← ht] at this
          exact List.ne_nil_of_mem this
        · exfalso
          have h1 := (canP_iff.mp h).1
          have hsplit := pfx_drop_part h1 (by omega)
          have hrec : repl = LIT1 ++ repl.drop LIT1.length := pfx_recon hrep
          have h2 : (LIT1.drop x.length).isPrefixOf
              ((LIT1 ++ repl.drop LIT1.length) ++ subAll repl r) = true := by
            have hx2 := hsplit.2
            rwa [show repl ++ subAll repl r
                = (LIT1 ++ repl.drop LIT1.length) ++ subAll repl r from by
              rw [← hrec]] at hx2
          have h3 : (LIT1.drop x.length).isPrefixOf LIT1 = true := by
            have ha := pfx_of_pfx_append_long h2 (by
              simp [List.length_drop, List.length_append]
              omega)
            exact pfx_of_pfx_append_long ha (by simp [List.length_drop])
          have h4 := pfx_take h3
          rw [List.length_drop] at h4
          exact LIT1_no_border x.length hxlen (by omega) h4

theorem subAll_idem_aux (repl : List Char) (hrep : LIT1.isPrefixOf repl = true)
    (hL1 : ∀ u, tryMatch (repl ++ u) = some u) :
    ∀ n s, s.length ≤ n → subAll repl (subAll repl s) = subAll repl s := by
  intro n
  induction n with
  | zero =>
    intro s hlen
    have hs : s = [] := List.length_eq_zero.mp (Nat.le_zero.mp hlen)
    subst hs
    rw [subAll_nil, subAll_nil]
  | succ n ih =>
    intro s hlen
    cases hm : tryMatch s with
    | some r =>
      rw [subAll_some hm]
      rw [subAll_some (hL1 (subAll repl r))]
      have hr : r.length ≤ n := by
        have := tryMatch_shrink hm
        omega
      rw [ih r hr]
    | none =>
      cases s with
      | nil => rw [subAll_nil, subAll_nil]
      | cons c t =>
        rw [subAll_none_cons hm]
        have hnone2 : tryMatch (c :: subAll repl t) = none := by
          by_contra hne
          obtain ⟨r', hr'⟩ := Option.ne_none_iff_exists'.mp hne
          have hcan : matchRE PAT (c :: subAll repl t) ≠ [] :=
            List.ne_nil_of_mem (tryMatch_some_mem hr')
          have hcan2 : matchRE PAT ([c] ++ subAll repl t) ≠ [] := by
            simpa using hcan
          have hlen' : t.length ≤ n := by simp at hlen; omega
          have := canP_shift repl hrep n t [c] hlen' hcan2
          simp only [List.singleton_append] at this
          rw [tryMatch_none_iff] at hm
          exact this hm
        rw [subAll_none_cons hnone2]
        have hlen' : t.length ≤ n := by simp at hlen; omega
        rw [ih t hlen']

/-- Substitution with either canonical replacement block is idempotent: a
second pass over the output of `subAll` changes nothing. -/
theorem subAll_idem (repl : List Char) (hrep : LIT1.isPrefixOf repl = true)
    (hL1 : ∀ u, tryMatch (repl ++ u) = some u) (s : List Char) :
    subAll repl (subAll repl s) = subAll repl s :=
  subAll_idem_aux repl hrep hL1 s.length s le_rfl

theorem LIT1_pre_ENS : LIT1.isPrefixOf ENS = true := by decide

theorem LIT1_pre_DIS : LIT1.isPrefixOf DIS = true := by decide

theorem subAll_ENS_idem (s : List Char) : subAll ENS (subAll ENS s) = subAll ENS s :=
  subAll_idem ENS LIT1_pre_ENS tryMatch_ENS s

theorem subAll_DIS_idem (s : List Char) : subAll DIS (subAll DIS s) = subAll DIS s :=
  subAll_idem DIS LIT1_pre_DIS tryMatch_DIS s

theorem subAll_changed_decomp_aux (repl : List Char) :
    ∀ n s, s.length ≤ n → subAll repl s ≠ s →
      ∃ a b, subAll repl s = a ++ (repl ++ b) := by
  intro n
  induction n with
  | zero =>
    intro s hlen hne
    have hs : s = [] := List.length_eq_zero.mp (Nat.le_zero.mp hlen)
    subst hs
    rw [subAll_nil] at hne
    exact absurd rfl hne
  | succ n ih =>
    intro s hlen hne
    cases hm : tryMatch s with
    | some r =>
      rw [subAll_some hm]
      exact ⟨[], subAll repl r, by simp⟩
    | none =>
      cases s with
      | nil => rw [subAll_nil] at hne; exact absurd rfl hne
      | cons c t =>
        rw [subAll_none_cons hm] at hne ⊢
        have hne' : subAll repl t ≠ t := by
          intro heq
          exact hne (by rw [heq])
        have hlen' : t.length ≤ n := by simp at hlen; omega
        obtain ⟨a, b, hab⟩ := ih t hlen' hne'
        exact ⟨c :: a, b, by rw [hab]; simp⟩

/-- If `subAll` changed anything then the replacement block occurs in its
output. -/
theorem subAll_changed_decomp (repl s : List Char) (hne : subAll repl s ≠ s) :
    ∃ a b, subAll repl s = a ++ (repl ++ b) :=
  subAll_changed_decomp_aux repl s.length s le_rfl hne

theorem subAll_hashfree_append (repl : List Char) :
    ∀ pre v, (∀ c ∈ pre, c ≠ '#') →
      subAll repl (pre ++ v) = pre ++ subAll repl v := by
  intro pre
  induction pre with
  | nil => intro v _; simp
  | cons c p' ih =>
    intro v hpre
    have hc : c ≠ '#' := hpre c (by simp)
    rw [List.cons_append, subAll_none_cons (tryMatch_none_of_not_hash hc)]
    rw [ih v (fun d hd => hpre d (by simp [hd]))]
    rfl

theorem subAll_hashfree (repl : List Char) {u : List Char} (h : ∀ c ∈ u, c ≠ '#') :
    subAll repl u = u := by
  have := subAll_hashfree_append repl u [] h
  simpa [subAll_nil] using this

theorem subAll_at_ENS (repl v : List Char) :
    subAll repl (ENS ++ v) = repl ++ subAll repl v :=
  subAll_some (tryMatch_ENS v)

theorem subAll_at_DIS (repl v : List Char) :
    subAll repl (DIS ++ v) = repl ++ subAll repl v :=
  subAll_some (tryMatch_DIS v)

/-- The mode-detection pattern `\s*\[tool\.uv\.sources\]` (what follows the
`^` anchor in `re.search(r"^\s*\[tool\.uv\.sources\]", content, re.MULTILINE)`). -/
def HEADER_RE : RE := .cat .wsStar (strRE HDRS)

/-- Does the detection pattern match at this position (a `^` anchor)? -/
def checkHere (s : List Char) : Bool := !(matchRE HEADER_RE s).isEmpty

/-- The rest of the input after the next newline, if any: in `re.MULTILINE`,
`^` matches at the start of the input and right after every `'\n'`. -/
def afterNl : List Char → Option (List Char)
  | [] => none
  | c :: t => if c = '\n' then some t else afterNl t

theorem afterNl_shrink : ∀ {s t : List Char}, afterNl s = some t → t.length < s.length := by
  intro s
  induction s with
  | nil => intro t h; simp [afterNl] at h
  | cons c s' ih =>
    intro t h
    simp only [afterNl] at h
    by_cases hc : c = '\n'
    · rw [if_pos hc] at h
      cases h
      simp
    · rw [if_neg hc] at h
      have := ih h
      simp
      omega

/-- Fuel-indexed anchored search; each step strictly shrinks the input, so
`s.length + 1` fuel is always enough. -/
def anchoredSearchF : Nat → List Char → Bool
  | 0, _ => false
  | fuel+1, s =>
    checkHere s ||
      (match afterNl s with
       | none => false
       | some t => anchoredSearchF fuel t)

/-- `re.search(r"^\s*\[tool\.uv\.sources\]", s, re.MULTILINE) is not None`:
try the detection pattern at the start and after every newline. -/
def anchoredSearch (s : List Char) : Bool := anchoredSearchF (s.length + 1) s

/-- The `is_enabled` test shared by `update_pyproject_toml` and `get_status`:
`re.search(r"^\s*\[tool\.uv\.sources\]", content, re.MULTILINE) is not None`. -/
def is_enabled (content : List Char) : Bool := anchoredSearch content

theorem anchoredSearchF_irrel :
    ∀ f₁ f₂ s, s.length < f₁ → s.length < f₂ →
      anchoredSearchF f₁ s = anchoredSearchF f₂ s := by
  intro f₁
  induction f₁ with
  | zero => intro f₂ s h₁ _; omega
  | succ g ih =>
    intro f₂ s h₁ h₂
    obtain ⟨g₂, rfl⟩ : ∃ g₂, f₂ = g₂ + 1 := ⟨f₂ - 1, by omega⟩
    cases hnl : afterNl s with
    | none => simp only [anchoredSearchF, hnl]
    | some t =>
      have ht := afterNl_shrink hnl
      simp only [anchoredSearchF, hnl]
      rw [ih g₂ t (by omega) (by omega)]

theorem anchoredSearch_none {s : List Char} (h : afterNl s = none) :
    anchoredSearch s = checkHere s := by
  unfold anchoredSearch
  simp only [anchoredSearchF, h]
  simp

theorem anchoredSearch_some {s t : List Char} (h : afterNl s = some t) :
    anchoredSearch s = (checkHere s || anchoredSearch t) := by
  have ht := afterNl_shrink h
  have h1 : anchoredSearchF (s.length + 1) s
      = (checkHere s || anchoredSearchF s.length t) := by
    simp only [anchoredSearchF, h]
  unfold anchoredSearch
  rw [h1, anchoredSearchF_irrel s.length (t.length + 1) t (by omega) (by omega)]

/-- Fuel-indexed line splitting; `s.length + 1` fuel is always enough. -/
def linesOfF : Nat → List Char → List (List Char)
  | 0, s => [s]
  | fuel+1, s =>
    match afterNl s with
    | none => [s]
    | some t => s.takeWhile (fun c => c ≠ '\n') :: linesOfF fuel t

/-- The lines of the text, split at newlines (each `^` anchor of
`re.MULTILINE` starts exactly one of these). -/
def linesOf (s : List Char) : List (List Char) := linesOfF (s.length + 1) s

theorem linesOfF_irrel :
    ∀ f₁ f₂ s, s.length < f₁ → s.length < f₂ →
      linesOfF f₁ s = linesOfF f₂ s := by
  intro f₁
  induction f₁ with
  | zero => intro f₂ s h₁ _; omega
  | succ g ih =>
    intro f₂ s h₁ h₂
    obtain ⟨g₂, rfl⟩ : ∃ g₂, f₂ = g₂ + 1 := ⟨f₂ - 1, by omega⟩
    cases hnl : afterNl s with
    | none => simp only [linesOfF, hnl]
    | some t =>
      have ht := afterNl_shrink hnl
      simp only [linesOfF, hnl]
      rw [ih g₂ t (by omega) (by omega)]

/-- Spec-side mode detector, following the specification's words: the text
contains the section header `[tool.uv.sources]` at the start of some line,
preceded only by whitespace on that line. -/
def isHdrLine (l : List Char) : Bool := HDRS.isPrefixOf (l.dropWhile isPySpace)

/-- Spec-side classifier: `Local` iff some line carries the uncommented
header. -/
def specLocal (s : List Char) : Bool := (linesOf s).any isHdrLine

theorem linesOf_none {s : List Char} (h : afterNl s = none) : linesOf s = [s] := by
  unfold linesOf
  simp only [linesOfF, h]

theorem linesOf_some {s t : List Char} (h : afterNl s = some t) :
    linesOf s = s.takeWhile (fun c => c ≠ '\n') :: linesOf t := by
  have ht := afterNl_shrink h
  have h1 : linesOfF (s.length + 1) s
      = s.takeWhile (fun c => c ≠ '\n') :: linesOfF s.length t := by
    simp only [linesOfF, h]
  unfold linesOf
  rw [h1, linesOfF_irrel s.length (t.length + 1) t (by omega) (by omega)]

theorem takeWhile_all_sat (p : Char → Bool) : ∀ l : List Char, (l.takeWhile p).all p = true := by
  intro l
  induction l with
  | nil => simp [List.takeWhile]
  | cons c t ih =>
    simp only [List.takeWhile]
    by_cases hc : p c = true
    · rw [hc]
      simp [hc, ih]
    · rw [Bool.not_eq_true] at hc
      rw [hc]
      simp

theorem dropWhile_append_all {p : Char → Bool} :
    ∀ {a : List Char} (b : List Char), a.all p = true →
      (a ++ b).dropWhile p = b.dropWhile p := by
  intro a
  induction a with
  | nil => intro b _; simp
  | cons c a' ih =>
    intro b ha
    simp only [List.all_cons, Bool.and_eq_true] at ha
    simp only [List.cons_append, List.dropWhile, ha.1]
    exact ih b ha.2

theorem dropWhile_head_false {p : Char → Bool} {b : List Char}
    (hb : b.head?.map p = some false) : b.dropWhile p = b := by
  cases b with
  | nil => simp at hb
  | cons c t =>
    simp only [List.head?_cons, Option.map, Option.some.injEq] at hb
    simp [List.dropWhile, hb]

theorem pfx_head_false {l m : List Char} {p : Char → Bool}
    (h : l.isPrefixOf m = true) (hl : l.head?.map p = some false) :
    m.head?.map p = some false := by
  cases l with
  | nil => simp at hl
  | cons c lt =>
    cases m with
    | nil => simp [List.isPrefixOf] at h
    | cons d mt =>
      simp only [List.isPrefixOf, Bool.and_eq_true, beq_iff_eq] at h
      simp only [List.head?_cons, Option.map, Option.some.injEq] at hl ⊢
      rw [← h.1]
      exact hl

theorem HDRS_head_nonws : HDRS.head?.map isPySpace = some false := by decide

/-- The anchored detection test is exactly: the header occurs after nothing
but (possibly newline-spanning) whitespace from this position. -/
theorem checkHere_eq (s : List Char) : checkHere s = isHdrLine s := by
  unfold checkHere isHdrLine HEADER_RE
  by_cases h : HDRS.isPrefixOf (s.dropWhile isPySpace) = true
  · rw [h]
    have hmem : (s.dropWhile isPySpace) ∈ wsStarRests s := by
      have hd := List.takeWhile_append_dropWhile isPySpace s
      have hx := @ws_decomp_mem (s.takeWhile isPySpace)
        (takeWhile_all_sat isPySpace s) (s.dropWhile isPySpace)
      rwa [hd] at hx
    have hq : (s.dropWhile isPySpace).drop HDRS.length ∈
        matchRE (strRE HDRS) (s.dropWhile isPySpace) := by
      rw [strRE_eq, if_pos h]
      simp
    have hmm : (s.dropWhile isPySpace).drop HDRS.length ∈
        matchRE (RE.cat RE.wsStar (strRE HDRS)) s :=
      matchRE_cat_mem.mpr ⟨s.dropWhile isPySpace, hmem, hq⟩
    have hnn := List.ne_nil_of_mem hmm
    simp [List.isEmpty_iff, hnn]
  · have hne : HDRS.isPrefixOf (s.dropWhile isPySpace) = false := by
      rw [Bool.not_eq_true] at h
      exact h
    rw [hne]
    have hnil : matchRE (RE.cat RE.wsStar (strRE HDRS)) s = [] := by
      rw [List.eq_nil_iff_forall_not_mem]
      intro r hr
      rw [matchRE_cat_mem] at hr
      obtain ⟨m, hm, hr2⟩ := hr
      obtain ⟨hpm, _⟩ := (strRE_mem HDRS).mp hr2
      obtain ⟨w, rfl, hw⟩ := ws_mem_decomp hm
      have hmhead : m.head?.map isPySpace = some false :=
        pfx_head_false hpm HDRS_head_nonws
      have hdw : (w ++ m).dropWhile isPySpace = m := by
        rw [dropWhile_append_all m hw, dropWhile_head_false hmhead]
      rw [hdw, hpm] at hne
      cases hne
    rw [hnil]
    rfl

theorem takeWhile_append_all {p : Char → Bool} :
    ∀ {a : List Char} (b : List Char), a.all p = true →
      (a ++ b).takeWhile p = a ++ b.takeWhile p := by
  intro a
  induction a with
  | nil => intro b _; simp
  | cons c a' ih =>
    intro b ha
    simp only [List.all_cons, Bool.and_eq_true] at ha
    simp only [List.cons_append, List.takeWhile, ha.1, List.append_eq]
    rw [ih b ha.2]

theorem pfx_head_some {l m : List Char} {c : Char} (h : l.isPrefixOf m = true)
    (hl : l.head? = some c) : m.head? = some c := by
  cases l with
  | nil => simp at hl
  | cons d lt =>
    cases m with
    | nil => simp [List.isPrefixOf] at h
    | cons e mt =>
      simp only [List.isPrefixOf, Bool.and_eq_true, beq_iff_eq] at h
      simp only [List.head?_cons, Option.some.injEq] at hl ⊢
      rw [← h.1]
      exact hl

theorem pfx_takeWhile {p : Char → Bool} :
    ∀ {l m : List Char}, l.isPrefixOf m = true → l.all p = true →
      l.isPrefixOf (m.takeWhile p) = true := by
  intro l
  induction l with
  | nil => intro m _ _; simp [List.isPrefixOf]
  | cons c lt ih =>
    intro m h hp
    cases m with
    | nil => simp [List.isPrefixOf] at h
    | cons d mt =>
      simp only [List.isPrefixOf, Bool.and_eq_true, beq_iff_eq] at h
      simp only [List.all_cons, Bool.and_eq_true] at hp
      have hd : p d = true := by rw [← h.1]; exact hp.1
      simp only [List.takeWhile, hd]
      simp only [List.isPrefixOf, Bool.and_eq_true, beq_iff_eq]
      exact ⟨h.1, ih h.2 hp.2⟩

theorem split_first_nl : ∀ {w : List Char}, '\n' ∈ w →
    ∃ w1 w2, w = w1 ++ '\n' :: w2 ∧ '\n' ∉ w1 := by
  intro w
  induction w with
  | nil => intro h; simp at h
  | cons c w' ih =>
    intro h
    by_cases hc : c = '\n'
    · subst hc
      exact ⟨[], w', by simp⟩
    · have hmem : '\n' ∈ w' := by
        rcases List.mem_cons.mp h with h | h
        · exact absurd h.symm hc
        · exact h
      obtain ⟨w1, w2, hw, hn⟩ := ih hmem
      exact ⟨c :: w1, w2, by simp [hw], by simp [hn]; exact fun he => hc he.symm⟩

theorem afterNl_append_no : ∀ {w1 : List Char} (rest : List Char), '\n' ∉ w1 →
    afterNl (w1 ++ '\n' :: rest) = some rest := by
  intro w1
  induction w1 with
  | nil => intro rest _; simp [afterNl]
  | cons c w' ih =>
    intro rest h
    have hc : c ≠ '\n' := by
      intro hc
      exact h (by simp [hc])
    simp only [List.cons_append, afterNl, if_neg hc]
    exact ih rest (fun hm => h (by simp [hm]))

theorem anchored_of_checkHere {s : List Char} (h : checkHere s = true) :
    anchoredSearch s = true := by
  cases hnl : afterNl s with
  | none => rw [anchoredSearch_none hnl, h]
  | some t => rw [anchoredSearch_some hnl, h]; simp

theorem anchored_after_aux : ∀ n (a r : List Char), a.length ≤ n →
    anchoredSearch r = true → anchoredSearch (a ++ '\n' :: r) = true := by
  intro n
  induction n with
  | zero =>
    intro a r hlen h
    have ha : a = [] := List.length_eq_zero.mp (Nat.le_zero.mp hlen)
    subst ha
    rw [List.nil_append, anchoredSearch_some (show afterNl ('\n' :: r) = some r by
      simp [afterNl]), h]
    simp
  | succ n ih =>
    intro a r hlen h
    by_cases hmem : '\n' ∈ a
    · obtain ⟨a1, a2, rfl, hn1⟩ := split_first_nl hmem
      have hnl : afterNl ((a1 ++ '\n' :: a2) ++ '\n' :: r) = some (a2 ++ '\n' :: r) := by
        rw [List.append_assoc, List.cons_append]
        exact afterNl_append_no _ hn1
      rw [anchoredSearch_some hnl]
      have hlen2 : a2.length ≤ n := by
        simp [List.length_append] at hlen
        omega
      rw [ih a2 r hlen2 h]
      simp
    · have hnl : afterNl (a ++ '\n' :: r) = some r := afterNl_append_no _ hmem
      rw [anchoredSearch_some hnl, h]
      simp

/-- Anchors are monotone: if the detection pattern fires at a suffix that
starts right after a newline, the whole search fires. -/
theorem anchored_after {a r : List Char} (h : anchoredSearch r = true) :
    anchoredSearch (a ++ '\n' :: r) = true :=
  anchored_after_aux a.length a r le_rfl h

theorem HDRS_head_lb : HDRS.head? = some '[' := by decide

theorem HDRS_nl_free : HDRS.all (fun c => c ≠ '\n') = true := by decide

theorem isHdrLine_of_line {s : List Char}
    (hB : isHdrLine (s.takeWhile (fun c => c ≠ '\n')) = true) : isHdrLine s = true := by
  unfold isHdrLine at hB ⊢
  set line := s.takeWhile (fun c => c ≠ '\n') with hline
  have hsplit : line = line.takeWhile isPySpace ++ line.dropWhile isPySpace :=
    (List.takeWhile_append_dropWhile isPySpace line).symm
  have hmhead : (line.dropWhile isPySpace).head? = some '[' :=
    pfx_head_some hB HDRS_head_lb
  have hs : s = line ++ s.dropWhile (fun c => c ≠ '\n') :=
    (List.takeWhile_append_dropWhile (fun c => c ≠ '\n') s).symm
  have hs2 : s = line.takeWhile isPySpace ++
      (line.dropWhile isPySpace ++ s.dropWhile (fun c => c ≠ '\n')) := by
    conv_lhs => rw [hs, hsplit]
    rw [List.append_assoc]
  rw [hs2, dropWhile_append_all _ (takeWhile_all_sat isPySpace line)]
  have hhead2 : (line.dropWhile isPySpace ++ s.dropWhile (fun c => c ≠ '\n')).head?
      = some '[' := head?_append_some hmhead
  have hnw : (line.dropWhile isPySpace ++ s.dropWhile (fun c => c ≠ '\n')).head?.map
      isPySpace = some false := by
    rw [hhead2]
    decide
  rw [dropWhile_head_false hnw]
  exact pfx_append_ext hB _

theorem isHdrLine_cases {s t : List Char} (hA : isHdrLine s = true)
    (hnl : afterNl s = some t) :
    isHdrLine (s.takeWhile (fun c => c ≠ '\n')) = true ∨ anchoredSearch t = true := by
  unfold isHdrLine at hA
  set w := s.takeWhile isPySpace with hwdef
  set m := s.dropWhile isPySpace with hmdef
  have hs : s = w ++ m := (List.takeWhile_append_dropWhile isPySpace s).symm
  have hw : w.all isPySpace = true := takeWhile_all_sat isPySpace s
  have hmhead : m.head? = some '[' := pfx_head_some hA HDRS_head_lb
  obtain ⟨mt, hmt⟩ : ∃ mt, m = '[' :: mt := by
    cases hm : m with
    | nil => rw [hm] at hmhead; simp at hmhead
    | cons c ct =>
      rw [hm] at hmhead
      simp only [List.head?_cons, Option.some.injEq] at hmhead
      exact ⟨ct, by rw [hmhead]⟩
  by_cases hwn : '\n' ∈ w
  · right
    obtain ⟨w1, w2, hw12, hn1⟩ := split_first_nl hwn
    have hw2 : w2.all isPySpace = true := by
      rw [hw12] at hw
      simp only [List.all_append, List.all_cons, Bool.and_eq_true] at hw
      exact hw.2.2
    have hnl2 : afterNl s = some (w2 ++ m) := by
      rw [hs, hw12, List.append_assoc, List.cons_append]
      exact afterNl_append_no _ hn1
    rw [hnl] at hnl2
    have ht : t = w2 ++ m := Option.some.inj hnl2
    subst ht
    apply anchored_of_checkHere
    rw [checkHere_eq]
    unfold isHdrLine
    have hmnw : m.head?.map isPySpace = some false := by
      rw [hmhead]; decide
    rw [dropWhile_append_all m hw2, dropWhile_head_false hmnw]
    exact hA
  · left
    have hwnl : w.all (fun c => c ≠ '\n') = true := by
      rw [List.all_eq_true]
      intro c hc
      simp only [ne_eq, decide_eq_true_eq]
      intro he
      subst he
      exact hwn hc
    have htw : s.takeWhile (fun c => c ≠ '\n') = w ++ m.takeWhile (fun c => c ≠ '\n') := by
      conv_lhs => rw [hs]
      exact takeWhile_append_all m hwnl
    unfold isHdrLine
    rw [htw]
    have htwm : m.takeWhile (fun c => c ≠ '\n') = '[' :: mt.takeWhile (fun c => c ≠ '\n') := by
      rw [hmt]
      simp [List.takeWhile]
    have hnw2 : (m.takeWhile (fun c => c ≠ '\n')).head?.map isPySpace = some false := by
      rw [htwm]
      simp only [List.head?_cons, Option.map, Option.some.injEq]
      decide
    rw [dropWhile_append_all _ hw, dropWhile_head_false hnw2]
    exact pfx_takeWhile hA HDRS_nl_free

theorem anchoredSearch_eq_specLocal : ∀ n s, s.length ≤ n →
    anchoredSearch s = specLocal s := by
  intro n
  induction n with
  | zero =>
    intro s hlen
    have hs : s = [] := List.length_eq_zero.mp (Nat.le_zero.mp hlen)
    subst hs
    rw [anchoredSearch_none (show afterNl [] = none from rfl), checkHere_eq]
    unfold specLocal
    rw [linesOf_none (show afterNl [] = none from rfl)]
    simp
  | succ n ih =>
    intro s hlen
    cases hnl : afterNl s with
    | none =>
      rw [anchoredSearch_none hnl, checkHere_eq]
      unfold specLocal
      rw [linesOf_none hnl]
      simp
    | some t =>
      rw [anchoredSearch_some hnl, checkHere_eq]
      unfold specLocal
      rw [linesOf_some hnl]
      simp only [List.any_cons]
      have hlent : t.length ≤ n := by
        have := afterNl_shrink hnl
        omega
      have iht : anchoredSearch t = specLocal t := ih t hlent
      have hrw : (linesOf t).any isHdrLine = specLocal t := rfl
      rw [hrw, ← iht]
      by_cases hB : isHdrLine (s.takeWhile (fun c => c ≠ '\n')) = true
      · rw [hB, isHdrLine_of_line hB]
      · cases hA : isHdrLine s with
        | false =>
          rw [Bool.not_eq_true] at hB
          rw [hB]
        | true =>
          rcases isHdrLine_cases hA hnl with htw | hanch
          · exact absurd htw hB
          · rw [hanch]
            simp

/-- The detector of `use-local-sdk.py` agrees with the specification's
line-based description of mode detection. -/
theorem is_enabled_eq_specLocal (s : List Char) : is_enabled s = specLocal s :=
  anchoredSearch_eq_specLocal s.length s le_rfl

/-- `get_status`: "enabled", "disabled", or "not found" (a missing file is
`none`). -/
def get_status : Option (List Char) → String
  | none => "not found"
  | some content => if is_enabled content then "enabled" else "disabled"

/-- The replacement text selected by `update_pyproject_toml`:
`ENABLED_SECTION` when enabling, `DISABLED_SECTION` when disabling. -/
def replFor (enable : Bool) : List Char := if enable then ENS else DIS

/-- Result of one `update_pyproject_toml` call: the file state afterwards
(`none` = still missing), the returned flag, and the contents passed to
`write_text`, in order. -/
structure FileOutcome where
  newFile : Option (List Char)
  changed : Bool
  writes : List (List Char)
deriving DecidableEq

/-- `update_pyproject_toml(file_path, enable)`: read the file (a missing file
warns and returns `False`); if the target mode already holds, return `False`;
otherwise substitute `SOURCES_PATTERN` and write back only when the text
changed. -/
def update_pyproject_toml (file : Option (List Char)) (enable : Bool) : FileOutcome :=
  match file with
  | none => ⟨none, false, []⟩
  | some content =>
    if enable && is_enabled content then ⟨some content, false, []⟩
    else if !enable && !is_enabled content then ⟨some content, false, []⟩
    else
      let new_content := subAll (replFor enable) content
      if new_content = content then ⟨some content, false, []⟩
      else ⟨some new_content, true, [new_content]⟩

/-- Observable steps of one run: a transition attempt on a project (with its
returned flag), or one invocation of `run_uv_sync` for a project. -/
inductive Ev where
  | trans (name : String) (changed : Bool)
  | resync (name : String)
deriving DecidableEq

/-- The per-project line the enable/disable commands print: `✓ Enabled/Disabled`,
`- Already ...`, or the `✗ Could not update (status: ...)` warning. -/
inductive Report where
  | updatedRep
  | alreadyRep
  | couldNotRep (status : String)
deriving DecidableEq

/-- The status string a command's no-op branch compares against. -/
def targetName (enable : Bool) : String := if enable then "enabled" else "disabled"

/-- Result of an enable/disable run over the project list. -/
structure ToggleOut where
  files : List (String × Option (List Char))
  reports : List (String × Report)
  updatedNames : List String
  events : List Ev
deriving DecidableEq

/-- The first loop of the enable/disable command: for every project in order,
run the transition, print its per-project line, and collect the projects
actually updated. -/
def enableLoop (enable : Bool) : List (String × Option (List Char)) → ToggleOut
  | [] => ⟨[], [], [], []⟩
  | (n, f) :: rest =>
    let o := update_pyproject_toml f enable
    let rep :=
      if o.changed then Report.updatedRep
      else if get_status o.newFile = targetName enable then Report.alreadyRep
      else Report.couldNotRep (get_status o.newFile)
    let tail := enableLoop enable rest
    ⟨(n, o.newFile) :: tail.files, (n, rep) :: tail.reports,
     (if o.changed then n :: tail.updatedNames else tail.updatedNames),
     Ev.trans n o.changed :: tail.events⟩

/-- A full enable/disable command: the transition loop over all projects,
then — for the updated subset only, in order — the `uv sync` loop. -/
def runToggle (enable : Bool) (fs : List (String × Option (List Char))) : ToggleOut :=
  let t := enableLoop enable fs
  ⟨t.files, t.reports, t.updatedNames, t.events ++ t.updatedNames.map Ev.resync⟩

/-- The `status` command's per-project lines. -/
def statusReports (fs : List (String × Option (List Char))) : List (String × String) :=
  fs.map (fun p => (p.1, get_status p.2))

/-- ASCII lowering of one character (`str.lower()` restricted to the range the
compared commands use). -/
def lowerChar (c : Char) : Char :=
  if 'A' ≤ c ∧ c ≤ 'Z' then Char.ofNat (c.toNat + 32) else c

/-- `sys.argv[1].lower()`. -/
def lowerStr (s : List Char) : List Char := s.map lowerChar

/-- Result of one `main()` run:  exit code, whether the usage text was
printed, the reports/status lines, events, and the final file states. -/
structure MainOut where
  exitCode : Nat
  usage : Bool
  reports : List (String × Report)
  statusLines : List (String × String)
  events : List Ev
  files : List (String × Option (List Char))
deriving DecidableEq

/-- `main()`: `argv` is `sys.argv[1:]`; a missing argument prints the usage
text and exits 1; the command is compared case-insensitively; an unknown
command prints the usage text and exits 1; valid commands run and exit 0. -/
def mainRun (argv : List (List Char)) (fs : List (String × Option (List Char))) : MainOut :=
  match argv with
  | [] => ⟨1, true, [], [], [], fs⟩
  | cmd :: _ =>
    let c := lowerStr cmd
    if c = "enable".data then
      let t := runToggle true fs
      ⟨0, false, t.reports, [], t.events, t.files⟩
    else if c = "disable".data then
      let t := runToggle false fs
      ⟨0, false, t.reports, [], t.events, t.files⟩
    else if c = "status".data then
      ⟨0, false, [], statusReports fs, [], fs⟩
    else ⟨1, true, [], [], [], fs⟩

/-- Spec-side validity of a command-line invocation. -/
def validCmd (argv : List (List Char)) : Bool :=
  match argv with
  | [] => false
  | cmd :: _ =>
    lowerStr cmd = "enable".data || lowerStr cmd = "disable".data ||
      lowerStr cmd = "status".data

theorem update_already_true {s : List Char} (he : is_enabled s = true) :
    update_pyproject_toml (some s) true = ⟨some s, false, []⟩ := by
  simp [update_pyproject_toml, he]

theorem update_already_false {s : List Char} (he : is_enabled s = false) :
    update_pyproject_toml (some s) false = ⟨some s, false, []⟩ := by
  simp [update_pyproject_toml, he]

theorem update_run (s : List Char) (e : Bool) (he : is_enabled s = !e) :
    update_pyproject_toml (some s) e =
      (if subAll (replFor e) s = s then ⟨some s, false, []⟩
       else ⟨some (subAll (replFor e) s), true, [subAll (replFor e) s]⟩) := by
  cases e with
  | true =>
    simp only [Bool.not_true] at he
    simp [update_pyproject_toml, he]
  | false =>
    simp only [Bool.not_false] at he
    simp [update_pyproject_toml, he]

theorem update_changed_shape {f : Option (List Char)} {e : Bool}
    (h : (update_pyproject_toml f e).changed = true) :
    ∃ s, f = some s ∧ is_enabled s = !e ∧ subAll (replFor e) s ≠ s ∧
      update_pyproject_toml f e
        = ⟨some (subAll (replFor e) s), true, [subAll (replFor e) s]⟩ := by
  cases f with
  | none =>
    have : update_pyproject_toml none e = ⟨none, false, []⟩ := rfl
    rw [this] at h
    cases h
  | some s =>
    refine ⟨s, rfl, ?_⟩
    cases e with
    | true =>
      cases hen : is_enabled s with
      | true => rw [update_already_true hen] at h; cases h
      | false =>
        have hrun := update_run s true (by simp [hen])
        refine ⟨by simp [hen], ?_⟩
        rw [hrun] at h ⊢
        by_cases hch : subAll (replFor true) s = s
        · rw [if_pos hch] at h; cases h
        · rw [if_neg hch]; exact ⟨hch, rfl⟩
    | false =>
      cases hen : is_enabled s with
      | false => rw [update_already_false hen] at h; cases h
      | true =>
        have hrun := update_run s false (by simp [hen])
        refine ⟨by simp [hen], ?_⟩
        rw [hrun] at h ⊢
        by_cases hch : subAll (replFor false) s = s
        · rw [if_pos hch] at h; cases h
        · rw [if_neg hch]; exact ⟨hch, rfl⟩

theorem subAll_replFor_idem (e : Bool) (s : List Char) :
    subAll (replFor e) (subAll (replFor e) s) = subAll (replFor e) s := by
  cases e with
  | true => exact subAll_ENS_idem s
  | false => exact subAll_DIS_idem s

theorem update_noop_of_target {s : List Char} {e : Bool} (he : is_enabled s = e) :
    update_pyproject_toml (some s) e = ⟨some s, false, []⟩ := by
  cases e with
  | true => exact update_already_true he
  | false => exact update_already_false he

/-- Claim C1 (idempotence of the transition): whenever a call to
`update_pyproject_toml` returns `changed = true`, an immediately following
call on the resulting file with the same target mode returns `changed = false`
and performs no write; and whenever the detected mode already equals the
target, the call returns `changed = false` without rewriting the file. -/
theorem claim_C1 (f : Option (List Char)) (e : Bool) :
    ((update_pyproject_toml f e).changed = true →
      update_pyproject_toml (update_pyproject_toml f e).newFile e
        = ⟨(update_pyproject_toml f e).newFile, false, []⟩)
    ∧ (∀ s, f = some s → is_enabled s = e →
        update_pyproject_toml f e = ⟨f, false, []⟩) := by
  constructor
  · intro hch
    obtain ⟨s, rfl, _hmode, _hne, hout⟩ := update_changed_shape hch
    rw [hout]
    simp only
    cases hen : is_enabled (subAll (replFor e) s) with
    | true =>
      cases e with
      | true => exact update_already_true hen
      | false =>
        rw [update_run (subAll (replFor false) s) false (by simp [hen])]
        rw [if_pos (subAll_replFor_idem false s)]
    | false =>
      cases e with
      | true =>
        rw [update_run (subAll (replFor true) s) true (by simp [hen])]
        rw [if_pos (subAll_replFor_idem true s)]
      | false => exact update_already_false hen
  · intro s hf he
    subst hf
    exact update_noop_of_target he

/-- Witness for C1 at a concrete descriptor: enabling the canonical commented
block reports a change, and the immediately repeated enable is a no-op; a
descriptor already enabled is a no-op at once. -/
theorem claim_C1_witness :
    (update_pyproject_toml (some DIS) true).changed = true ∧
    update_pyproject_toml (update_pyproject_toml (some DIS) true).newFile true
      = ⟨(update_pyproject_toml (some DIS) true).newFile, false, []⟩ ∧
    update_pyproject_toml (some ENS) true = ⟨some ENS, false, []⟩ :=
  ⟨by decide, (claim_C1 (some DIS) true).1 (by decide),
   (claim_C1 (some ENS) true).2 ENS rfl (by decide)⟩

/-- Claim C10 (write-iff-changed): `update_pyproject_toml` writes exactly when
it returns `true`; the single written content differs from the original and is
the resulting file state; a `false` return leaves the file byte-identical. -/
theorem claim_C10 (f : Option (List Char)) (e : Bool) :
    ((update_pyproject_toml f e).changed = true ↔ (update_pyproject_toml f e).writes ≠ [])
    ∧ ((update_pyproject_toml f e).changed = true →
        ∃ s nc, f = some s ∧ nc ≠ s ∧ (update_pyproject_toml f e).writes = [nc] ∧
          (update_pyproject_toml f e).newFile = some nc)
    ∧ ((update_pyproject_toml f e).changed = false →
        (update_pyproject_toml f e).newFile = f ∧ (update_pyproject_toml f e).writes = []) := by
  refine ⟨⟨?_, ?_⟩, ?_, ?_⟩
  · intro h
    obtain ⟨s, rfl, _, _, hout⟩ := update_changed_shape h
    rw [hout]
    simp
  · intro hw
    by_contra hch
    rw [Bool.not_eq_true] at hch
    rcases f with _ | s
    · exact hw (show (update_pyproject_toml none e).writes = [] from rfl)
    · rcases hee : is_enabled s with _ | _
      all_goals rcases e with _ | _
      all_goals first
        | (exact hw (by rw [update_already_false hee]))
        | (exact hw (by rw [update_already_true hee]))
        | (rw [update_run s false (by simp [hee])] at hw hch
           by_cases hsub : subAll (replFor false) s = s
           · rw [if_pos hsub] at hw; exact hw rfl
           · rw [if_neg hsub] at hch; cases hch)
        | (rw [update_run s true (by simp [hee])] at hw hch
           by_cases hsub : subAll (replFor true) s = s
           · rw [if_pos hsub] at hw; exact hw rfl
           · rw [if_neg hsub] at hch; cases hch)
  · intro h
    obtain ⟨s, rfl, _, hne, hout⟩ := update_changed_shape h
    exact ⟨s, subAll (replFor e) s, rfl, hne, by rw [hout], by rw [hout]⟩
  · intro hch
    rcases f with _ | s
    · exact ⟨rfl, rfl⟩
    · rcases hee : is_enabled s with _ | _
      all_goals rcases e with _ | _
      all_goals first
        | (rw [update_already_false hee]; exact ⟨rfl, rfl⟩)
        | (rw [update_already_true hee]; exact ⟨rfl, rfl⟩)
        | (rw [update_run s false (by simp [hee])] at hch ⊢
           by_cases hsub : subAll (replFor false) s = s
           · rw [if_pos hsub]; exact ⟨rfl, rfl⟩
           · rw [if_neg hsub] at hch; cases hch)
        | (rw [update_run s true (by simp [hee])] at hch ⊢
           by_cases hsub : subAll (replFor true) s = s
           · rw [if_pos hsub]; exact ⟨rfl, rfl⟩
           · rw [if_neg hsub] at hch; cases hch)

/-- Witness for C10 at concrete descriptors: a real change writes exactly the
new content; a no-op writes nothing. -/
theorem claim_C10_witness :
    (update_pyproject_toml (some DIS) true).writes ≠ [] ∧
    ((update_pyproject_toml (some ENS) true).newFile = some ENS ∧
      (update_pyproject_toml (some ENS) true).writes = []) :=
  ⟨(claim_C10 (some DIS) true).1.mp (by decide),
   (claim_C10 (some ENS) true).2.2 (by decide)⟩

/-- Lines 1–2 of the canonical block (identical in both modes). -/
def ENSA : List Char :=
  ("# Uncomment the section below to use the local spyglass-sdk for development\n# This assumes spyglass-sdk is located at ../../spyglass-sdk relative to this file").data

/-- What follows the header line inside the uncommented block. -/
def ENSB : List Char :=
  ("\nspyglass-ai = \x7b path = \"../../spyglass-sdk\", editable = true \x7d").data

theorem ENS_hdr_decomp : ENS = ENSA ++ '\n' :: (HDRS ++ ENSB) := by decide

theorem is_enabled_hdr_after_nl (a b : List Char) :
    is_enabled (a ++ '\n' :: (HDRS ++ b)) = true := by
  unfold is_enabled
  apply anchored_after
  apply anchored_of_checkHere
  rw [checkHere_eq]
  unfold isHdrLine
  have hh : (HDRS ++ b).head?.map isPySpace = some false := by
    rw [head?_append_some HDRS_head_lb]
    decide
  rw [dropWhile_head_false hh]
  exact isPrefixOf_append_self HDRS b

theorem is_enabled_ctx_ENS (pre suf : List Char) :
    is_enabled (pre ++ (ENS ++ suf)) = true := by
  have hsh : pre ++ (ENS ++ suf) = (pre ++ ENSA) ++ '\n' :: (HDRS ++ (ENSB ++ suf)) := by
    rw [ENS_hdr_decomp]
    simp [List.append_assoc, List.cons_append]
  rw [hsh]
  exact is_enabled_hdr_after_nl _ _

theorem ENS_DIS_length_ne : ENS.length ≠ DIS.length := by decide

theorem ctx_ne (pre suf : List Char) : pre ++ (ENS ++ suf) ≠ pre ++ (DIS ++ suf) := by
  intro h
  have hl := congrArg List.length h
  simp only [List.length_append] at hl
  have hne := ENS_DIS_length_ne
  omega

theorem subAll_ctx_DIS (repl pre suf : List Char) (hp : ∀ c ∈ pre, c ≠ '#')
    (hs : ∀ c ∈ suf, c ≠ '#') :
    subAll repl (pre ++ (DIS ++ suf)) = pre ++ (repl ++ suf) := by
  rw [subAll_hashfree_append repl pre _ hp, subAll_at_DIS, subAll_hashfree repl hs]

theorem subAll_ctx_ENS (repl pre suf : List Char) (hp : ∀ c ∈ pre, c ≠ '#')
    (hs : ∀ c ∈ suf, c ≠ '#') :
    subAll repl (pre ++ (ENS ++ suf)) = pre ++ (repl ++ suf) := by
  rw [subAll_hashfree_append repl pre _ hp, subAll_at_ENS, subAll_hashfree repl hs]

theorem update_enable_ctx (pre suf : List Char) (hp : ∀ c ∈ pre, c ≠ '#')
    (hs : ∀ c ∈ suf, c ≠ '#') (h0 : is_enabled (pre ++ (DIS ++ suf)) = false) :
    update_pyproject_toml (some (pre ++ (DIS ++ suf))) true
      = ⟨some (pre ++ (ENS ++ suf)), true, [pre ++ (ENS ++ suf)]⟩ := by
  rw [update_run _ true (by simp [h0])]
  have hsub : subAll (replFor true) (pre ++ (DIS ++ suf)) = pre ++ (ENS ++ suf) :=
    subAll_ctx_DIS ENS pre suf hp hs
  rw [hsub, if_neg (ctx_ne pre suf)]

theorem update_disable_ctx (pre suf : List Char) (hp : ∀ c ∈ pre, c ≠ '#')
    (hs : ∀ c ∈ suf, c ≠ '#') :
    update_pyproject_toml (some (pre ++ (ENS ++ suf))) false
      = ⟨some (pre ++ (DIS ++ suf)), true, [pre ++ (DIS ++ suf)]⟩ := by
  rw [update_run _ false (by simp [is_enabled_ctx_ENS pre suf])]
  have hsub : subAll (replFor false) (pre ++ (ENS ++ suf)) = pre ++ (DIS ++ suf) :=
    subAll_ctx_ENS DIS pre suf hp hs
  rw [hsub, if_neg (fun h => ctx_ne pre suf h.symm)]

/-- A descriptor whose block carries free-form text (` JUNK`) inside the span
matched by the pattern's lazy wildcard gap on line 1. -/
def junkDescr : List Char :=
  ("# Uncomment the section below to use the local spyglass-sdk for development JUNK\n# This assumes spyglass-sdk is located at ../../spyglass-sdk relative to this file\n# [tool.uv.sources]\n# spyglass-ai = \x7b path = \"../../spyglass-sdk\", editable = true \x7d").data

/-- Counterexample to claim C2 as stated: on `junkDescr` the `enable`
transition succeeds (`changed = true`), yet `disable` immediately afterwards
does not restore the descriptor byte-for-byte — the ` JUNK` text swallowed by
the lazy wildcard is lost to canonicalization. -/
theorem claim_C2_counterexample :
    (update_pyproject_toml (some junkDescr) true).changed = true ∧
    (update_pyproject_toml
        (update_pyproject_toml (some junkDescr) true).newFile false).newFile
      ≠ some junkDescr := by decide

/-- Claim C2, amended (round trip): when the descriptor consists of the
canonical commented block with `#`-free surrounding text and is detected as
disabled, `enable` succeeds and rewrites it to the uncommented block, and an
immediate `disable` restores the descriptor text byte-for-byte. -/
theorem claim_C2 (pre suf : List Char) (hp : ∀ c ∈ pre, c ≠ '#')
    (hs : ∀ c ∈ suf, c ≠ '#') (h0 : is_enabled (pre ++ (DIS ++ suf)) = false) :
    update_pyproject_toml (some (pre ++ (DIS ++ suf))) true
      = ⟨some (pre ++ (ENS ++ suf)), true, [pre ++ (ENS ++ suf)]⟩ ∧
    update_pyproject_toml (some (pre ++ (ENS ++ suf))) false
      = ⟨some (pre ++ (DIS ++ suf)), true, [pre ++ (DIS ++ suf)]⟩ :=
  ⟨update_enable_ctx pre suf hp hs h0, update_disable_ctx pre suf hp hs⟩

/-- Witness for the amended C2 at the canonical block itself. -/
theorem claim_C2_witness :
    update_pyproject_toml (some ([] ++ (DIS ++ []))) true
      = ⟨some ([] ++ (ENS ++ [])), true, [[] ++ (ENS ++ [])]⟩ ∧
    update_pyproject_toml (some ([] ++ (ENS ++ []))) false
      = ⟨some ([] ++ (DIS ++ [])), true, [[] ++ (DIS ++ [])]⟩ :=
  claim_C2 [] [] (by simp) (by simp) (by decide)

/-- Claim C3 (mode detection): the detector reports `Local` (enabled) exactly
when the text contains the section header `[tool.uv.sources]` at the start of
some line preceded only by whitespace; when the header occurs only commented
out, or not at all (`specLocal = false`), the status is reported as
`disabled` (Published). -/
theorem get_status_some (s : List Char) :
    get_status (some s) = if is_enabled s then "enabled" else "disabled" := rfl

theorem claim_C3 (s : List Char) :
    (is_enabled s = true ↔ specLocal s = true) ∧
    (get_status (some s) = "enabled" ↔ specLocal s = true) ∧
    (specLocal s = false → get_status (some s) = "disabled") := by
  have he := is_enabled_eq_specLocal s
  refine ⟨by rw [he], ?_, ?_⟩
  · rw [get_status_some, ← he]
    cases h : is_enabled s with
    | true => simp
    | false => simp
  · intro h
    have hf : is_enabled s = false := by rw [he, h]
    rw [get_status_some, hf]
    simp

/-- Witness for C3 at concrete descriptors: the uncommented block is detected
as enabled by the line criterion, the commented block as disabled. -/
theorem claim_C3_witness :
    specLocal ENS = true ∧ get_status (some DIS) = "disabled" :=
  ⟨(claim_C3 ENS).1.mp (by decide), (claim_C3 DIS).2.2 (by decide)⟩

/-- Counterexample to claim C8 as stated: running `enable` on the empty
descriptor (no recognized block) is a silent no-op, after which `status`
reports `disabled`, not `enabled`. -/
theorem claim_C8_counterexample :
    (update_pyproject_toml (some []) true).newFile = some [] ∧
    get_status (update_pyproject_toml (some []) true).newFile = "disabled" ∧
    ("disabled" : String) ≠ "enabled" := by decide

/-- Claim C8, amended (status accuracy): after an `enable` that changed the
descriptor, or on a descriptor already enabled, `status` reports `enabled`;
after `disable` on an already-disabled descriptor `status` reports `disabled`,
and likewise after `disable` of a canonical-form descriptor (uncommented block
with `#`-free surroundings whose commented form is not detected as enabled).
In general a `disable` that edits the block can leave stray uncommented
headers elsewhere in the file, so the disable half needs the canonical-form
assumption. -/
theorem claim_C8 (s pre suf : List Char) :
    ((update_pyproject_toml (some s) true).changed = true ∨ is_enabled s = true →
      get_status (update_pyproject_toml (some s) true).newFile = "enabled")
    ∧ (is_enabled s = false →
      get_status (update_pyproject_toml (some s) false).newFile = "disabled")
    ∧ ((∀ c ∈ pre, c ≠ '#') → (∀ c ∈ suf, c ≠ '#') →
        is_enabled (pre ++ (DIS ++ suf)) = false →
        get_status (update_pyproject_toml (some (pre ++ (ENS ++ suf))) false).newFile
          = "disabled") := by
  refine ⟨?_, ?_, ?_⟩
  · intro h
    by_cases hen : is_enabled s = true
    · rw [update_already_true hen]
      simp [get_status, hen]
    · rcases h with hch | h
      · obtain ⟨s', hfs, _, hne, hout⟩ := update_changed_shape hch
        have hs' : s = s' := by injection hfs
        subst hs'
        rw [hout]
        simp only
        obtain ⟨a, b, hab⟩ := subAll_changed_decomp (replFor true) s hne
        have hrepl : replFor true = ENS := rfl
        rw [hrepl] at hab
        have hform : subAll (replFor true) s
            = (a ++ ENSA) ++ '\n' :: (HDRS ++ (ENSB ++ b)) := by
          rw [hrepl, hab, ENS_hdr_decomp]
          simp [List.append_assoc, List.cons_append]
        rw [hform, get_status_some, is_enabled_hdr_after_nl]
        simp
      · exact absurd h hen
  · intro hen
    rw [update_already_false hen]
    simp [get_status, hen]
  · intro hp hs h0
    rw [update_disable_ctx pre suf hp hs]
    simp only
    simp [get_status, h0]

/-- Witness for the amended C8 at concrete descriptors. -/
theorem claim_C8_witness :
    get_status (update_pyproject_toml (some DIS) true).newFile = "enabled" ∧
    get_status (update_pyproject_toml (some ([] ++ (ENS ++ []))) false).newFile
      = "disabled" :=
  ⟨(claim_C8 DIS [] []).1 (Or.inl (by decide)),
   (claim_C8 DIS [] []).2.2 (by simp) (by simp) (by decide)⟩

/-- Projects resynced during a run, in invocation order. -/
def resyncTargets (evs : List Ev) : List String :=
  evs.filterMap (fun ev => match ev with | Ev.resync n => some n | Ev.trans _ _ => none)

/-- The project an event belongs to. -/
def evName : Ev → String
  | .trans n _ => n
  | .resync n => n

/-- Claim C5's ordering property for a pair of projects: once any event of
the second project has occurred, no event of the first project follows (i.e.
the first project is processed to completion before the second starts). -/
def completionOrder (n₁ n₂ : String) : List Ev → Bool
  | [] => true
  | ev :: t =>
    (if evName ev = n₂ then t.all (fun ev' => evName ev' ≠ n₁) else true)
      && completionOrder n₁ n₂ t

theorem enableLoop_events (e : Bool) :
    ∀ fs, (enableLoop e fs).events
      = fs.map (fun p => Ev.trans p.1 (update_pyproject_toml p.2 e).changed) := by
  intro fs
  induction fs with
  | nil => rfl
  | cons p rest ih =>
    obtain ⟨n, f⟩ := p
    simp only [enableLoop, List.map_cons]
    rw [ih]

theorem enableLoop_updatedNames (e : Bool) :
    ∀ fs, (enableLoop e fs).updatedNames
      = (fs.filter (fun p => (update_pyproject_toml p.2 e).changed)).map Prod.fst := by
  intro fs
  induction fs with
  | nil => rfl
  | cons p rest ih =>
    obtain ⟨n, f⟩ := p
    simp only [enableLoop, List.filter_cons]
    by_cases hch : (update_pyproject_toml f e).changed = true
    · simp [hch, ih]
    · simp [hch, ih]

theorem resyncTargets_append (l₁ l₂ : List Ev) :
    resyncTargets (l₁ ++ l₂) = resyncTargets l₁ ++ resyncTargets l₂ :=
  List.filterMap_append l₁ l₂ _

theorem resyncTargets_trans_map (e : Bool) (l : List (String × Option (List Char))) :
    resyncTargets (l.map (fun p => Ev.trans p.1 (update_pyproject_toml p.2 e).changed)) = [] := by
  unfold resyncTargets
  rw [List.filterMap_map]
  induction l with
  | nil => rfl
  | cons p rest ih =>
    rw [List.filterMap_cons]
    exact ih

theorem resyncTargets_resync_map (names : List String) :
    resyncTargets (names.map Ev.resync) = names := by
  unfold resyncTargets
  rw [List.filterMap_map]
  induction names with
  | nil => rfl
  | cons n rest ih => simpa using ih

theorem runToggle_resyncTargets (e : Bool) (fs : List (String × Option (List Char))) :
    resyncTargets (runToggle e fs).events
      = (fs.filter (fun p => (update_pyproject_toml p.2 e).changed)).map Prod.fst := by
  unfold runToggle
  simp only
  rw [resyncTargets_append, enableLoop_events, resyncTargets_trans_map,
    resyncTargets_resync_map, enableLoop_updatedNames]
  simp

theorem count_trans_events (n : String) (e : Bool) (fs : List (String × Option (List Char))) :
    ((enableLoop e fs).events).count (Ev.resync n) = 0 := by
  rw [List.count_eq_zero, enableLoop_events]
  intro hmem
  rw [List.mem_map] at hmem
  obtain ⟨p, _, hp⟩ := hmem
  cases hp

theorem count_names_filter (n : String) (q : (String × Option (List Char)) → Bool) :
    ∀ (fs : List (String × Option (List Char))) (f : Option (List Char)),
      (fs.map Prod.fst).Nodup → (n, f) ∈ fs →
      ((fs.filter q).map Prod.fst).count n = if q (n, f) then 1 else 0 := by
  intro fs
  induction fs with
  | nil => intro f _ hmem; simp at hmem
  | cons p rest ih =>
    intro f hnd hmem
    obtain ⟨m, g⟩ := p
    simp only [List.map_cons, List.nodup_cons] at hnd
    have hcount0 : ∀ (l : List (String × Option (List Char))),
        n ∉ l.map Prod.fst → ((l.filter q).map Prod.fst).count n = 0 := by
      intro l hnl
      rw [List.count_eq_zero]
      intro hm
      apply hnl
      rw [List.mem_map] at hm ⊢
      obtain ⟨x, hx, hfx⟩ := hm
      exact ⟨x, (List.mem_filter.mp hx).1, hfx⟩
    rcases List.mem_cons.mp hmem with heq | hrest
    · rw [Prod.mk.injEq] at heq
      obtain ⟨h1, h2⟩ := heq
      subst h1
      subst h2
      rw [List.filter_cons]
      by_cases hq : q (n, f) = true
      · rw [if_pos hq, hq, if_pos rfl]
        simp only [List.map_cons, List.count_cons]
        rw [hcount0 rest hnd.1]
        simp
      · rw [Bool.not_eq_true] at hq
        rw [hq]
        simp only [Bool.false_eq_true, if_neg]
        exact hcount0 rest hnd.1
    · have hne : m ≠ n := by
        intro he
        apply hnd.1
        rw [List.mem_map]
        exact ⟨(n, f), hrest, by rw [he]⟩
      rw [List.filter_cons]
      by_cases hq : q (m, g) = true
      · rw [if_pos hq]
        simp only [List.map_cons, List.count_cons]
        rw [ih f hnd.2 hrest]
        simp [hne]
      · rw [Bool.not_eq_true] at hq
        rw [hq]
        simp only [Bool.false_eq_true, if_neg]
        exact ih f hnd.2 hrest

/-- Claim C4 (resync gating): the `status` command performs no events at all
(in particular it never invokes `uv sync`); an `enable`/`disable` run invokes
`uv sync` exactly on the projects whose transition returned `changed = true`,
in order — with distinct project names, exactly once for each changed project
and never for a no-op project. -/
theorem claim_C4 (fs : List (String × Option (List Char))) (e : Bool) :
    (∀ cmd rest, lowerStr cmd = "status".data → (mainRun (cmd :: rest) fs).events = [])
    ∧ resyncTargets (runToggle e fs).events
        = (fs.filter (fun p => (update_pyproject_toml p.2 e).changed)).map Prod.fst
    ∧ ((fs.map Prod.fst).Nodup → ∀ n f, (n, f) ∈ fs →
        ((runToggle e fs).events.count (Ev.resync n)
          = if (update_pyproject_toml f e).changed then 1 else 0)) := by
  refine ⟨?_, runToggle_resyncTargets e fs, ?_⟩
  · intro cmd rest hcmd
    simp only [mainRun]
    rw [hcmd]
    rw [if_neg (by decide), if_neg (by decide), if_pos rfl]
  · intro hnd n f hmem
    unfold runToggle
    simp only
    rw [List.count_append, count_trans_events]
    have hinj : Function.Injective Ev.resync := by
      intro a b h
      cases h
      rfl
    rw [enableLoop_updatedNames]
    have := List.count_map_of_injective
      ((fs.filter (fun p => (update_pyproject_toml p.2 e).changed)).map Prod.fst)
      Ev.resync hinj n
    rw [this, count_names_filter n _ fs f hnd hmem]
    simp

/-- Witness for C4: with one changing and one non-changing project, the run
resyncs the first exactly once and the second never. -/
theorem claim_C4_witness :
    (mainRun ["status".data] [("langchain-aws", some DIS)]).events = [] ∧
    (runToggle true [("langchain-aws", some DIS), ("openai-simple", some ENS)]).events.count
        (Ev.resync "langchain-aws") = 1 ∧
    (runToggle true [("langchain-aws", some DIS), ("openai-simple", some ENS)]).events.count
        (Ev.resync "openai-simple") = 0 := by
  refine ⟨(claim_C4 [("langchain-aws", some DIS)] true).1 "status".data [] (by decide), ?_, ?_⟩
  · have h := (claim_C4 [("langchain-aws", some DIS), ("openai-simple", some ENS)] true).2.2
      (by decide) "langchain-aws" (some DIS) (by simp)
    rw [h]
    decide
  · have h := (claim_C4 [("langchain-aws", some DIS), ("openai-simple", some ENS)] true).2.2
      (by decide) "openai-simple" (some ENS) (by simp)
    rw [h]
    decide

/-- Two example projects, both starting from the canonical commented block. -/
def fsPair : List (String × Option (List Char)) :=
  [("fastapi-langchain", some DIS), ("langchain-aws", some DIS)]

/-- Counterexample to claim C5 as stated: with two projects both needing a
change, the run performs the second project's transition before the first
project's resync — the full trace is transition, transition, resync, resync —
so the first project is not processed to completion before the second one
starts. -/
theorem claim_C5_counterexample :
    (runToggle true fsPair).events
      = [Ev.trans "fastapi-langchain" true, Ev.trans "langchain-aws" true,
         Ev.resync "fastapi-langchain", Ev.resync "langchain-aws"] ∧
    completionOrder "fastapi-langchain" "langchain-aws"
      (runToggle true fsPair).events = false := by decide

/-- Claim C5, amended (phase order): an enable/disable run is two phases — it
performs every project's transition first, in list order, and only then the
resync invocations, in list order restricted to the projects that changed. -/
theorem claim_C5 (e : Bool) (fs : List (String × Option (List Char))) :
    (runToggle e fs).events
      = fs.map (fun p => Ev.trans p.1 (update_pyproject_toml p.2 e).changed)
        ++ ((fs.filter (fun p => (update_pyproject_toml p.2 e).changed)).map
            Prod.fst).map Ev.resync := by
  unfold runToggle
  simp only
  rw [enableLoop_events, enableLoop_updatedNames]

theorem noMatch_subAll (repl : List Char) :
    ∀ n s, s.length ≤ n → (∀ i, tryMatch (s.drop i) = none) →
      subAll repl s = s := by
  intro n
  induction n with
  | zero =>
    intro s hlen _
    have hs : s = [] := List.length_eq_zero.mp (Nat.le_zero.mp hlen)
    subst hs
    exact subAll_nil repl
  | succ g ih =>
    intro s hlen h
    cases s with
    | nil => exact subAll_nil repl
    | cons c t =>
      have h0 := h 0
      rw [List.drop_zero] at h0
      rw [subAll_none_cons h0]
      have ht : ∀ i, tryMatch (t.drop i) = none := by
        intro i
        have := h (i + 1)
        rwa [List.drop_succ_cons] at this
      rw [ih t (by simp at hlen; omega) ht]

theorem noMatch_of_bounded {s : List Char}
    (h : ∀ i ∈ List.range (s.length + 1), tryMatch (s.drop i) = none) :
    ∀ i, tryMatch (s.drop i) = none := by
  intro i
  by_cases hi : i ≤ s.length
  · exact h i (List.mem_range.mpr (by omega))
  · rw [List.drop_eq_nil_of_le (by omega)]
    rfl

/-- Claim C6 (pattern mismatch is a soft no-op): when the detected mode
differs from the target but the block pattern matches nowhere in the text,
the transition leaves the file byte-identical, returns `changed = false`,
and the dispatcher re-detects the mode and prints the `Could not update`
warning line (the run does not fail and no resync happens). -/
theorem claim_C6 (s : List Char) (e : Bool) (n : String)
    (hmode : is_enabled s = !e)
    (hnm : ∀ i, tryMatch (s.drop i) = none) :
    update_pyproject_toml (some s) e = ⟨some s, false, []⟩ ∧
    runToggle e [(n, some s)] =
      ⟨[(n, some s)], [(n, Report.couldNotRep (get_status (some s)))], [],
       [Ev.trans n false]⟩ ∧
    get_status (some s) ≠ targetName e := by
  have hsub : subAll (replFor e) s = s :=
    noMatch_subAll (replFor e) s.length s le_rfl hnm
  have hupd : update_pyproject_toml (some s) e = ⟨some s, false, []⟩ := by
    rw [update_run s e hmode, if_pos hsub]
  have hstat : get_status (some s) ≠ targetName e := by
    rw [get_status_some, hmode]
    cases e <;> decide
  refine ⟨hupd, ?_, hstat⟩
  unfold runToggle enableLoop
  simp [hupd, hstat, enableLoop]

/-- Witness for C6: an uncommented header with no surrounding block — the
disable transition cannot find the pattern, no-ops, and the status stays
`enabled`. -/
theorem claim_C6_witness :
    update_pyproject_toml (some "[tool.uv.sources]\n".data) false
      = ⟨some "[tool.uv.sources]\n".data, false, []⟩ ∧
    get_status (some "[tool.uv.sources]\n".data) ≠ targetName false :=
  ⟨(claim_C6 "[tool.uv.sources]\n".data false "openai-simple" (by decide)
      (noMatch_of_bounded (by decide))).1,
   (claim_C6 "[tool.uv.sources]\n".data false "openai-simple" (by decide)
      (noMatch_of_bounded (by decide))).2.2⟩

theorem enableLoop_append (e : Bool) (fs₁ fs₂ : List (String × Option (List Char))) :
    enableLoop e (fs₁ ++ fs₂)
      = ⟨(enableLoop e fs₁).files ++ (enableLoop e fs₂).files,
         (enableLoop e fs₁).reports ++ (enableLoop e fs₂).reports,
         (enableLoop e fs₁).updatedNames ++ (enableLoop e fs₂).updatedNames,
         (enableLoop e fs₁).events ++ (enableLoop e fs₂).events⟩ := by
  induction fs₁ with
  | nil => simp [enableLoop]
  | cons p rest ih =>
    obtain ⟨m, g⟩ := p
    simp only [List.cons_append, enableLoop, ih]
    by_cases hch : (update_pyproject_toml g e).changed = true
    · simp [hch, ih]
    · simp [hch, ih]

theorem enableLoop_missing (e : Bool) (n : String)
    (fs : List (String × Option (List Char))) :
    enableLoop e ((n, none) :: fs)
      = ⟨(n, none) :: (enableLoop e fs).files,
         (n, Report.couldNotRep "not found") :: (enableLoop e fs).reports,
         (enableLoop e fs).updatedNames,
         Ev.trans n false :: (enableLoop e fs).events⟩ := by
  have ho : update_pyproject_toml none e = ⟨none, false, []⟩ := rfl
  have hst : get_status (none : Option (List Char)) = "not found" := rfl
  simp only [enableLoop, ho, hst]
  cases e <;> simp [targetName]

/-- Claim C7 (NotFound isolation): a project whose descriptor is missing is
reported as `Could not update (status: not found)` (or `not found` under
`status`), its file is not touched and it is never resynced; every other
project's report, file and the resynced set are exactly what they would be if
the missing project were absent from the list. -/
theorem claim_C7 (n : String) (e : Bool)
    (fs₁ fs₂ : List (String × Option (List Char))) :
    (runToggle e (fs₁ ++ (n, none) :: fs₂)).reports
      = (runToggle e fs₁).reports
        ++ (n, Report.couldNotRep "not found") :: (runToggle e fs₂).reports
    ∧ (runToggle e (fs₁ ++ (n, none) :: fs₂)).files
      = (runToggle e fs₁).files ++ (n, none) :: (runToggle e fs₂).files
    ∧ (runToggle e (fs₁ ++ (n, none) :: fs₂)).updatedNames
      = (runToggle e (fs₁ ++ fs₂)).updatedNames
    ∧ resyncTargets (runToggle e (fs₁ ++ (n, none) :: fs₂)).events
      = resyncTargets (runToggle e (fs₁ ++ fs₂)).events
    ∧ statusReports (fs₁ ++ (n, none) :: fs₂)
      = statusReports fs₁ ++ (n, "not found") :: statusReports fs₂ := by
  have hrep : ∀ gs, (runToggle e gs).reports = (enableLoop e gs).reports :=
    fun gs => rfl
  have hfil : ∀ gs, (runToggle e gs).files = (enableLoop e gs).files :=
    fun gs => rfl
  have hupd : ∀ gs, (runToggle e gs).updatedNames = (enableLoop e gs).updatedNames :=
    fun gs => rfl
  refine ⟨?_, ?_, ?_, ?_, ?_⟩
  · rw [hrep, hrep, hrep, enableLoop_append, enableLoop_missing]
  · rw [hfil, hfil, hfil, enableLoop_append, enableLoop_missing]
  · rw [hupd, hupd, enableLoop_append, enableLoop_missing, enableLoop_append]
  · rw [runToggle_resyncTargets, runToggle_resyncTargets]
    rw [List.filter_append, List.filter_append, List.filter_cons]
    have hch : (update_pyproject_toml (none : Option (List Char)) e).changed = false := rfl
    simp [hch]
  · unfold statusReports
    simp [get_status]

/-- Claim C9 (CLI exit behaviour): a missing positional argument or an
argument outside `{enable, disable, status}` (compared case-insensitively)
prints the usage text and exits 1; a valid command exits 0; the exit code
never depends on the project files, so per-project warnings are not fatal. -/
theorem claim_C9 (argv : List (List Char))
    (fs fs' : List (String × Option (List Char))) :
    ((mainRun argv fs).exitCode = if validCmd argv then 0 else 1)
    ∧ ((mainRun argv fs).usage = !validCmd argv)
    ∧ (mainRun argv fs).exitCode = (mainRun argv fs').exitCode := by
  cases argv with
  | nil => exact ⟨rfl, rfl, rfl⟩
  | cons cmd rest =>
    simp only [mainRun, validCmd]
    by_cases h1 : lowerStr cmd = "enable".data
    · simp [h1]
    · by_cases h2 : lowerStr cmd = "disable".data
      · simp [h1, h2]
      · by_cases h3 : lowerStr cmd = "status".data
        · simp [h1, h2, h3]
        · simp [h1, h2, h3]
